import Mathlib

/-!
Shallow embedding of MPD's `src/input_curl.c` (the curl-backed seekable
input stream): the chunk buffer queue, the bounded rewind cache, the read
drain loop with its engine pump, the seek engine (no-op / rewind /
fast-forward / reconnect) and the response-header interpreter.

Bytes are modelled as `Nat`, payloads as `List Nat`.  `off_t` fields
(`is->offset`, `is->size`) are modelled as `Int` (`size < 0` means the
size is unknown).  The external libcurl transfer engine is modelled by
explicit event parameters: a read call takes the list of engine responses
(`PumpStep`) its fill loop consumes, and the reconnecting seek takes the
outcomes of `input_curl_easy_init` / `input_curl_send_request` /
`input_curl_multi_info_read` as parameters.  The `State.delivered` field
is ghost instrumentation that records every byte the engine delivered
through `input_curl_writefunction`; `State.startCount` counts successful
`input_curl_easy_init` calls, i.e. transfer-engine start requests.
-/

set_option maxHeartbeats 1000000

namespace InputCurl

/-- Rewinding is possible after up to 64 kB (`max_rewind_size`). -/
def max_rewind_size : Int := 64 * 1024

/-- A body chunk (`struct buffer`): payload bytes plus a consumed cursor. -/
structure Chunk where
  payload : List Nat
  consumed : Nat
deriving Repr, DecidableEq

/-- The fields of `struct input_stream` this plugin reads and writes.
`offset` and `size` are `off_t`; `size` is negative while unknown.
`error` is the stream error code (`0` = none, the code stores `-1`). -/
structure IS where
  offset : Int
  size : Int
  seekable : Bool
  mime : Option (List Char)
  meta_name : Option (List Char)
  error : Int
  ready : Bool
deriving Repr, DecidableEq

/-- The fields of `struct input_curl`.  `easy` records whether the easy
handle currently exists; `range` records the start offset `n` of the
string `"n-"` stored in `c->range` for the `Range` header. -/
structure Curl where
  buffers : List Chunk
  rewind : List Chunk
  eof : Bool
  buffered : Bool
  easy : Bool
  range : Option Int
deriving Repr, DecidableEq

/-- The whole stream state, with ghost instrumentation (`startCount`,
`delivered`) that no operation ever reads. -/
structure State where
  is : IS
  c : Curl
  startCount : Nat
  delivered : List Nat
deriving Repr, DecidableEq

/-- Result of the 1-second `select()` wait in `input_curl_select`:
data available (`ret > 0`), timeout (`ret == 0`) or failure (`ret < 0`). -/
inductive SelectResult where
  | ready
  | timeout
  | failed
deriving Repr, DecidableEq

/-- Result code of one `curl_multi_perform` call, restricted to the three
cases the code distinguishes. -/
inductive MCode where
  | ok
  | callAgain
  | failed
deriving Repr, DecidableEq

/-- One iteration's worth of engine behaviour inside the fill loop of
`input_curl_read`: the `select` outcome (consulted only when the previous
`curl_multi_perform` did not return `CURLM_CALL_MULTI_PERFORM`), the
`curl_multi_perform` result, the body chunks that perform delivered via
`input_curl_writefunction`, and the `CURLMSG_DONE` results (`true` =
`CURLE_OK`) that `input_curl_multi_info_read` finds afterwards. -/
structure PumpStep where
  sel : SelectResult
  mcode : MCode
  chunks : List (List Nat)
  msgs : List Bool
deriving Repr, DecidableEq

/-- `input_curl_writefunction`: called by curl with new body data; a
zero-length write returns immediately, otherwise a fresh chunk with
`consumed = 0` is appended to the buffer list and the stream is marked
buffered/ready.  The ghost `delivered` field records the bytes. -/
def input_curl_writefunction (s : State) (data : List Nat) : State :=
  if data = [] then s
  else
    { s with
      c := { s.c with buffers := s.c.buffers ++ [⟨data, 0⟩], buffered := true }
      is := { s.is with ready := true }
      delivered := s.delivered ++ data }

/-- All body chunks delivered during one `curl_multi_perform` call. -/
def applyChunks (s : State) (chunks : List (List Nat)) : State :=
  chunks.foldl input_curl_writefunction s

/-- `input_curl_multi_info_read`: for every `CURLMSG_DONE` message set
`c->eof = true`; if the transfer result is not `CURLE_OK`, store
`is->error = -1` and return `false` immediately. -/
def input_curl_multi_info_read (msgs : List Bool) (s : State) : State × Bool :=
  match msgs with
  | [] => (s, true)
  | ok :: rest =>
    let s1 := { s with c := { s.c with eof := true } }
    if ok then input_curl_multi_info_read rest s1
    else ({ s1 with is := { s1.is with error := -1 } }, false)

/-- The fill loop at the top of `input_curl_read`:
`while (!c->eof && list_empty(&c->buffers))`.  Each iteration first waits
in `input_curl_select` when the previous perform did not ask to be called
again (a timeout or failure makes `read` return 0 at once), then calls
`curl_multi_perform` (delivering body chunks via the write callback), and
finally `input_curl_multi_info_read`.  Returns the state together with
`true` when the loop exited normally (proceed to drain the buffers) and
`false` when `read` returns 0 early; `none` when the supplied engine
trace is too short to decide the loop. -/
def readFill (s : State) (mcode : MCode) (steps : List PumpStep) :
    Option (State × Bool) :=
  if s.c.eof || !s.c.buffers.isEmpty then some (s, true)
  else
    match steps with
    | [] => none
    | st :: rest =>
      if mcode ≠ MCode.callAgain ∧ st.sel ≠ SelectResult.ready then
        some (s, false)
      else
        let s1 := applyChunks s st.chunks
        match st.mcode with
        | MCode.failed => some ({ s1 with c := { s1.c with eof := true } }, false)
        | m =>
          match input_curl_multi_info_read st.msgs s1 with
          | (s2, false) => some (s2, false)
          | (s2, true) => readFill s2 m rest

/-- `consume_buffer`: advance the consumed cursor; the chunk is removed
from its queue exactly when it became fully consumed (the `Bool`), to be
either retained in the rewind list or freed by the caller. -/
def consume_buffer (b : Chunk) (len : Nat) : Chunk × Bool :=
  ({ b with consumed := b.consumed + len },
   decide (b.payload.length ≤ b.consumed + len))

/-- `read_from_buffer`: copy at most `min len (size - consumed)` bytes
starting at the consumed cursor, then `consume_buffer` them. -/
def read_from_buffer (b : Chunk) (len : Nat) : List Nat × Chunk × Bool :=
  ((b.payload.drop b.consumed).take (min len (b.payload.length - b.consumed)),
   consume_buffer b (min len (b.payload.length - b.consumed)))

/-- The send loop of `input_curl_read`:
`while (size > 0 && !list_empty(&c->buffers))`, reading from the front
chunk each iteration.  Returns the copied bytes, the remaining buffer
list and the chunks that became fully consumed and were removed, in
order (the caller decides whether they are retained or freed). -/
def curlDrain : Nat → List Chunk → List Nat × List Chunk × List Chunk
  | _, [] => ([], [], [])
  | size, b :: rest =>
    if size = 0 then ([], b :: rest, [])
    else
      match read_from_buffer b size with
      | (bytes, b', removed) =>
        if removed then
          match curlDrain (size - bytes.length) rest with
          | (out, bufs, rem) => (bytes ++ out, bufs, b' :: rem)
        else (bytes, b' :: rest, [])

/-- `input_curl_read`: run the fill loop on the supplied engine trace
(an early return yields 0 bytes), then drain the buffer queue.  The
rewind head is chosen once before the drain: fully consumed chunks are
retained iff the rewind list is non-empty or the offset is 0.  After the
drain the offset advances by the bytes copied, and if the offset now
exceeds `max_rewind_size` while retaining, the whole rewind list is
dropped. -/
def input_curl_read (s : State) (size : Nat) (steps : List PumpStep) :
    Option (List Nat × State) :=
  match readFill s MCode.callAgain steps with
  | none => none
  | some (s1, false) => some ([], s1)
  | some (s1, true) =>
    let useRewind : Bool := !s1.c.rewind.isEmpty || decide (s1.is.offset = 0)
    match curlDrain size s1.c.buffers with
    | (out, bufs, removed) =>
      let rew := if useRewind then s1.c.rewind ++ removed else s1.c.rewind
      let off := s1.is.offset + (out.length : Int)
      let rew := if useRewind ∧ max_rewind_size < off then [] else rew
      some (out,
        { s1 with
          c := { s1.c with buffers := bufs, rewind := rew }
          is := { s1.is with offset := off } })

/-- `input_curl_eof`: the transfer finished and no buffered data is left. -/
def input_curl_eof (s : State) : Bool :=
  s.c.eof && s.c.buffers.isEmpty

/-- `input_curl_can_rewind`: cheap rewind is possible when the rewind
list is non-empty, or when the front buffer's consumed cursor equals the
current offset (the very first buffer of the resource). -/
def input_curl_can_rewind (s : State) : Bool :=
  if !s.c.rewind.isEmpty then true
  else
    match s.c.buffers with
    | [] => false
    | b :: _ => decide ((b.consumed : Int) = s.is.offset)

/-- Reset a chunk's consumed cursor to 0. -/
def resetChunk (b : Chunk) : Chunk :=
  { b with consumed := 0 }

/-- Reset the front chunk's consumed cursor (used by `input_curl_rewind`
on the current buffer list). -/
def resetFront : List Chunk → List Chunk
  | [] => []
  | b :: rest => resetChunk b :: rest

/-- `input_curl_rewind`: reset every rewind chunk's consumed cursor and
the current front buffer's consumed cursor to 0, splice the rewind list
back onto the front of the buffer list, and set the offset to 0.  (The
debug-only offset reconciliation assertion is not modelled.) -/
def input_curl_rewind (s : State) : State :=
  { s with
    c := { s.c with
           rewind := []
           buffers := s.c.rewind.map resetChunk ++ resetFront s.c.buffers }
    is := { s.is with offset := 0 } }

/-- `input_curl_easy_free`: remove and free the easy handle, the request
headers and the range string, and free every buffered and every rewind
chunk. -/
def input_curl_easy_free (s : State) : State :=
  { s with
    c := { s.c with easy := false, range := none, buffers := [], rewind := [] } }

/-- The fast-forward loop of `input_curl_seek`:
`while (offset > is->offset && !list_empty(&c->buffers))`.  Each
iteration recomputes the rewind head (retain iff the rewind list is
non-empty or the offset is 0), consumes
`min (remaining gap) (front chunk's unconsumed length)` bytes from the
front chunk and advances the offset; fully consumed chunks are retained
or freed accordingly.  No rewind-size eviction is applied here. -/
def curlFastForward (target : Int) :
    List Chunk → List Chunk → Int → List Chunk × List Chunk × Int
  | [], rew, off => ([], rew, off)
  | b :: rest, rew, off =>
    if target ≤ off then (b :: rest, rew, off)
    else
      let useRewind : Bool := !rew.isEmpty || decide (off = 0)
      let avail := b.payload.length - b.consumed
      let len := if target - off < (avail : Int) then (target - off).toNat else avail
      match consume_buffer b len with
      | (b', removed) =>
        if removed then
          curlFastForward target rest
            (if useRewind then rew ++ [b'] else rew) (off + (len : Int))
        else (b' :: rest, rew, off + (len : Int))

/-- Absolute seek target: `SEEK_SET` keeps the offset, `SEEK_CUR` adds
the current offset, `SEEK_END` adds the total size and fails while the
size is unknown. -/
inductive Whence where
  | set
  | cur
  | seekEnd
deriving Repr, DecidableEq

/-- The `switch (whence)` of `input_curl_seek`. -/
def seekTarget (s : State) (offset : Int) : Whence → Option Int
  | Whence.set => some offset
  | Whence.cur => some (offset + s.is.offset)
  | Whence.seekEnd => if s.is.size < 0 then none else some (offset + s.is.size)

/-- `input_curl_seek`.  `initOk` is the outcome of
`input_curl_easy_init` (which first resets `c->eof`, and on success
creates a new easy handle — counted in `startCount`), `sendChunks` are
the body chunks delivered during `input_curl_send_request`'s perform
loop, `sendOk` that loop's outcome, and `msgs` the messages found by the
final `input_curl_multi_info_read`. -/
def input_curl_seek (s : State) (offset : Int) (whence : Whence)
    (initOk : Bool) (sendChunks : List (List Nat)) (sendOk : Bool)
    (msgs : List Bool) : Bool × State :=
  if whence = Whence.set ∧ offset = 0 ∧ s.is.offset = 0 then (true, s)
  else if whence = Whence.set ∧ offset = 0 ∧ input_curl_can_rewind s then
    (true, input_curl_rewind s)
  else if !s.is.seekable then (false, s)
  else
    match seekTarget s offset whence with
    | none => (false, s)
    | some t =>
      if t < 0 then (false, s)
      else
        match curlFastForward t s.c.buffers s.c.rewind s.is.offset with
        | (bufs, rew, off) =>
          let s1 := { s with
            c := { s.c with buffers := bufs, rewind := rew }
            is := { s.is with offset := off } }
          if t = off then (true, s1)
          else
            let s2 := input_curl_easy_free s1
            let s2 := { s2 with is := { s2.is with offset := t } }
            if t = s2.is.size then
              (true, { s2 with c := { s2.c with eof := true } })
            else
              let s3 := { s2 with c := { s2.c with eof := false } }
              if !initOk then (false, s3)
              else
                let s4 := { s3 with
                  c := { s3.c with
                         easy := true
                         range := if 0 < t then some t else s3.c.range }
                  startCount := s3.startCount + 1 }
                let s5 := applyChunks s4 sendChunks
                if !sendOk then (false, s5)
                else
                  match input_curl_multi_info_read msgs s5 with
                  | (s6, b) => (b, s6)

/-! ## Header interpreter (`input_curl_headerfunction`) -/

/-- `g_ascii_isspace`, by byte value: space, `\t`, `\n`, `\v`, `\f`, `\r`. -/
def gIsSpaceB (c : Char) : Bool :=
  c.toNat = 32 || c.toNat = 9 || c.toNat = 10 || c.toNat = 11 ||
  c.toNat = 12 || c.toNat = 13

/-- ASCII decimal digit test, by byte value. -/
def isDigit10 (c : Char) : Bool :=
  48 ≤ c.toNat && c.toNat ≤ 57

/-- `g_ascii_tolower` of one character. -/
def asciiLower (c : Char) : Char :=
  if 65 ≤ c.toNat ∧ c.toNat ≤ 90 then Char.ofNat (c.toNat + 32) else c

/-- Case-insensitive equality, as `strcasecmp(...) == 0`. -/
def lowerEq (a b : List Char) : Bool :=
  decide (a.map asciiLower = b.map asciiLower)

/-- `memchr(header, ':', size)`: split the line at the first colon. -/
def memchrColon : List Char → Option (List Char × List Char)
  | [] => none
  | c :: rest =>
    if c = ':' then some ([], rest)
    else
      match memchrColon rest with
      | none => none
      | some (a, b) => some (c :: a, b)

/-- Drop trailing characters satisfying `p` (the `while (end > value &&
g_ascii_isspace(end[-1])) --end;` loop). -/
def rtrim (p : Char → Bool) (l : List Char) : List Char :=
  (l.reverse.dropWhile p).reverse

/-- The value digits folded to a number. -/
def digitsVal (ds : List Char) : Nat :=
  ds.foldl (fun a c => a * 10 + (c.toNat - 48)) 0

/-- `g_ascii_strtoull(buffer, NULL, 10)`: skip ASCII whitespace, accept
one optional sign, parse the longest decimal-digit prefix (empty prefix
gives 0), saturate at `2^64 - 1` on overflow; a leading `-` negates the
value modulo `2^64`. -/
def g_ascii_strtoull10 (cs : List Char) : Nat :=
  let cs1 := cs.dropWhile gIsSpaceB
  let cs2 := if cs1.head? = some '-' ∨ cs1.head? = some '+' then cs1.tail else cs1
  let ds := cs2.takeWhile isDigit10
  let v0 := digitsVal ds
  let v := if 2 ^ 64 ≤ v0 then 2 ^ 64 - 1 else v0
  if cs1.head? = some '-' then (2 ^ 64 - v) % 2 ^ 64 else v

def cAcceptRanges : List Char := "accept-ranges".toList
def cContentLength : List Char := "content-length".toList
def cContentType : List Char := "content-type".toList
def cIcyName : List Char := "icy-name".toList
def cIceName : List Char := "ice-name".toList
def cXAudiocastName : List Char := "x-audiocast-name".toList

/-- Narrowing of an integer into a signed 64-bit `off_t`: the canonical
representative modulo `2 ^ 64` lying in the interval from `-(2 ^ 63)`
inclusive to `2 ^ 63` exclusive.  The C statement
`is->size = is->offset + g_ascii_strtoull(...)` converts the `off_t`
offset to `guint64`, adds modulo `2 ^ 64`, and stores the unsigned
result back into the signed `off_t` field; for every representable
`off_t` offset that computation equals `off_t_wrap` of the exact sum. -/
def off_t_wrap (x : Int) : Int :=
  (x + 2 ^ 63) % 2 ^ 64 - 2 ^ 63

/-- `input_curl_headerfunction`: split one raw header line at the first
colon (no colon, or a name of 64 bytes or more, ignores the line), trim
the value on both sides, then dispatch case-insensitively.
`content-length` additionally ignores the line when the trimmed value
ends at or beyond byte 64 of the line, and otherwise assigns
`is->size = is->offset + g_ascii_strtoull(value)`, where the sum is
performed in unsigned 64-bit arithmetic and narrowed back into the
signed `off_t` field (`off_t_wrap`). -/
def input_curl_headerfunction (is : IS) (line : List Char) : IS :=
  match memchrColon line with
  | none => is
  | some (name, rest) =>
    if 64 ≤ name.length then is
    else
      let v1 := rest.dropWhile gIsSpaceB
      let v2 := rtrim gIsSpaceB v1
      if lowerEq name cAcceptRanges then { is with seekable := true }
      else if lowerEq name cContentLength then
        if 64 ≤ name.length + 1 + (rest.length - v1.length) + v2.length then is
        else { is with size := off_t_wrap (is.offset + (g_ascii_strtoull10 v2 : Int)) }
      else if lowerEq name cContentType then { is with mime := some v2 }
      else if lowerEq name cIcyName || lowerEq name cIceName ||
              lowerEq name cXAudiocastName then
        { is with meta_name := some v2 }
      else is

/-! ## Derived notions used by the statements -/

/-- The not-yet-delivered part of one chunk. -/
def chunkRest (b : Chunk) : List Nat :=
  b.payload.drop b.consumed

/-- All bytes buffered but not yet delivered to the reader, in order. -/
def pendingBytes (s : State) : List Nat :=
  (s.c.buffers.map chunkRest).flatten

/-- Total payload length of a chunk list. -/
def chunkSizes (l : List Chunk) : Nat :=
  (l.map fun b => b.payload.length).sum

/-- Total payload retained in the rewind cache. -/
def rewindBytes (s : State) : Nat :=
  chunkSizes s.c.rewind

/-- Consumed cursor of the front chunk (0 for an empty queue). -/
def frontConsumed : List Chunk → Nat
  | [] => 0
  | b :: _ => b.consumed

/-- Replace only the two queues and the offset of a state (used to state
that an operation touched nothing else). -/
def setQueues (s : State) (bufs rew : List Chunk) (off : Int) : State :=
  { s with
    c := { s.c with buffers := bufs, rewind := rew }
    is := { s.is with offset := off } }

/-- A sequence of `read` calls with empty engine traces (pure drains). -/
def runReads (s : State) : List Nat → Option (List Nat × State)
  | [] => some ([], s)
  | k :: ks =>
    match input_curl_read s k [] with
    | none => none
    | some (out, s') =>
      match runReads s' ks with
      | none => none
      | some (out2, s2) => some (out ++ out2, s2)

/-- A sequence of `read` calls, each with its own engine trace. -/
def runReadsT (s : State) : List (Nat × List PumpStep) → Option (List Nat × State)
  | [] => some ([], s)
  | (k, tr) :: ks =>
    match input_curl_read s k tr with
    | none => none
    | some (out, s') =>
      match runReadsT s' ks with
      | none => none
      | some (out2, s2) => some (out ++ out2, s2)

/-! ## Equation lemmas for the drain loop -/

theorem curlDrain_nil (n : Nat) : curlDrain n [] = ([], [], []) := rfl

theorem curlDrain_cons_zero (b : Chunk) (rest : List Chunk) :
    curlDrain 0 (b :: rest) = ([], b :: rest, []) := by
  simp [curlDrain]

theorem curlDrain_cons_kept (n : Nat) (b : Chunk) (rest : List Chunk)
    (hn : n ≠ 0)
    (hk : ¬ b.payload.length ≤ b.consumed + min n (b.payload.length - b.consumed)) :
    curlDrain n (b :: rest) =
      ((b.payload.drop b.consumed).take (min n (b.payload.length - b.consumed)),
       { b with consumed := b.consumed + min n (b.payload.length - b.consumed) } ::
         rest,
       []) := by
  simp only [curlDrain, if_neg hn, read_from_buffer, consume_buffer,
    decide_eq_true_eq]
  rw [if_neg hk]

theorem curlDrain_take_length (n : Nat) (b : Chunk) :
    ((b.payload.drop b.consumed).take
      (min n (b.payload.length - b.consumed))).length =
      min n (b.payload.length - b.consumed) := by
  rw [List.length_take, List.length_drop]
  have := Nat.min_le_right n (b.payload.length - b.consumed)
  omega

theorem curlDrain_cons_removed (n : Nat) (b : Chunk) (rest : List Chunk)
    (hn : n ≠ 0)
    (hk : b.payload.length ≤ b.consumed + min n (b.payload.length - b.consumed)) :
    curlDrain n (b :: rest) =
      ((b.payload.drop b.consumed).take (min n (b.payload.length - b.consumed)) ++
        (curlDrain (n - min n (b.payload.length - b.consumed)) rest).1,
       (curlDrain (n - min n (b.payload.length - b.consumed)) rest).2.1,
       { b with consumed := b.consumed + min n (b.payload.length - b.consumed) } ::
         (curlDrain (n - min n (b.payload.length - b.consumed)) rest).2.2) := by
  simp only [curlDrain, if_neg hn, read_from_buffer, consume_buffer,
    decide_eq_true_eq]
  rw [if_pos hk, curlDrain_take_length]

/-! ## Structural lemmas about the drain loop -/

theorem frontConsumed_nil : frontConsumed [] = 0 := rfl

theorem frontConsumed_cons (b : Chunk) (l : List Chunk) :
    frontConsumed (b :: l) = b.consumed := rfl

theorem chunkSizes_nil : chunkSizes [] = 0 := rfl

theorem chunkSizes_cons (b : Chunk) (l : List Chunk) :
    chunkSizes (b :: l) = b.payload.length + chunkSizes l := by
  simp [chunkSizes]

theorem resetFront_nil : resetFront [] = [] := rfl

theorem resetFront_cons (b : Chunk) (l : List Chunk) :
    resetFront (b :: l) = resetChunk b :: l := rfl

theorem resetChunk_of_consumed_zero (b : Chunk) (h : b.consumed = 0) :
    resetChunk b = b := by
  cases b
  simp only [resetChunk] at h ⊢
  simp_all

theorem resetFront_of_all_zero (l : List Chunk)
    (h : ∀ x ∈ l, x.consumed = 0) : resetFront l = l := by
  cases l with
  | nil => rfl
  | cons b rest =>
    simp only [resetFront]
    rw [resetChunk_of_consumed_zero b (h b (by simp))]

theorem frontConsumed_of_all_zero (l : List Chunk)
    (h : ∀ x ∈ l, x.consumed = 0) : frontConsumed l = 0 := by
  cases l with
  | nil => rfl
  | cons b rest => exact h b (by simp)

theorem curlDrain_pending (n : Nat) (bufs : List Chunk) :
    (curlDrain n bufs).1 ++ (((curlDrain n bufs).2.1).map chunkRest).flatten =
      (bufs.map chunkRest).flatten := by
  induction bufs generalizing n with
  | nil => simp [curlDrain_nil]
  | cons b rest ih =>
    by_cases hn : n = 0
    · subst hn
      simp [curlDrain_cons_zero]
    · by_cases hk : b.payload.length ≤
          b.consumed + min n (b.payload.length - b.consumed)
      · rw [curlDrain_cons_removed n b rest hn hk]
        simp only [List.map_cons, List.flatten_cons, chunkRest]
        have hbytes : (b.payload.drop b.consumed).take
            (min n (b.payload.length - b.consumed)) = b.payload.drop b.consumed := by
          apply List.take_of_length_le
          rw [List.length_drop]
          omega
        rw [hbytes, List.append_assoc, ih]
      · rw [curlDrain_cons_kept n b rest hn hk]
        simp only [List.map_cons, List.flatten_cons, chunkRest]
        rw [← List.append_assoc]
        congr 1
        have hdd : b.payload.drop
            (b.consumed + min n (b.payload.length - b.consumed)) =
            (b.payload.drop b.consumed).drop
              (min n (b.payload.length - b.consumed)) := by
          rw [List.drop_drop]
        rw [hdd, List.take_append_drop]

theorem curlDrain_sizes (n : Nat) (bufs : List Chunk)
    (h1 : ∀ x ∈ bufs, x.consumed ≤ x.payload.length)
    (h2 : ∀ x ∈ bufs.tail, x.consumed = 0) :
    chunkSizes (curlDrain n bufs).2.2 + frontConsumed (curlDrain n bufs).2.1 =
      frontConsumed bufs + (curlDrain n bufs).1.length := by
  induction bufs generalizing n with
  | nil => simp [curlDrain_nil, chunkSizes, frontConsumed]
  | cons b rest ih =>
    have hble : b.consumed ≤ b.payload.length := h1 b (by simp)
    by_cases hn : n = 0
    · subst hn
      simp [curlDrain_cons_zero, chunkSizes]
    · by_cases hk : b.payload.length ≤
          b.consumed + min n (b.payload.length - b.consumed)
      · rw [curlDrain_cons_removed n b rest hn hk]
        have hih := ih (n - min n (b.payload.length - b.consumed))
          (fun x hx => h1 x (List.mem_cons_of_mem _ hx))
          (fun x hx => h2 x (List.tail_subset rest hx))
        have hfr : frontConsumed rest = 0 :=
          frontConsumed_of_all_zero rest (by simpa using h2)
        rw [hfr] at hih
        simp only [chunkSizes_cons, frontConsumed_cons, List.length_append,
          curlDrain_take_length]
        have hmin := Nat.min_le_right n (b.payload.length - b.consumed)
        omega
      · rw [curlDrain_cons_kept n b rest hn hk]
        simp only [chunkSizes_nil, frontConsumed_cons, curlDrain_take_length]
        omega

theorem curlDrain_reset (n : Nat) (bufs : List Chunk)
    (h2 : ∀ x ∈ bufs.tail, x.consumed = 0) :
    ((curlDrain n bufs).2.2).map resetChunk ++ resetFront (curlDrain n bufs).2.1 =
      resetFront bufs := by
  induction bufs generalizing n with
  | nil => simp [curlDrain_nil, resetFront]
  | cons b rest ih =>
    by_cases hn : n = 0
    · subst hn
      simp [curlDrain_cons_zero]
    · by_cases hk : b.payload.length ≤
          b.consumed + min n (b.payload.length - b.consumed)
      · rw [curlDrain_cons_removed n b rest hn hk]
        have hih := ih (n - min n (b.payload.length - b.consumed))
          (fun x hx => h2 x (List.tail_subset rest hx))
        have hrest : resetFront rest = rest :=
          resetFront_of_all_zero rest (by simpa using h2)
        rw [hrest] at hih
        rw [List.map_cons, List.cons_append, hih, resetFront_cons]
        rfl
      · rw [curlDrain_cons_kept n b rest hn hk]
        rw [List.map_nil, List.nil_append, resetFront_cons, resetFront_cons]
        rfl

theorem curlDrain_wf (n : Nat) (bufs : List Chunk)
    (h1 : ∀ x ∈ bufs, x.consumed < x.payload.length)
    (h2 : ∀ x ∈ bufs.tail, x.consumed = 0) :
    (∀ x ∈ (curlDrain n bufs).2.1, x.consumed < x.payload.length) ∧
    (∀ x ∈ ((curlDrain n bufs).2.1).tail, x.consumed = 0) ∧
    (∀ x ∈ (curlDrain n bufs).2.2, x.consumed = x.payload.length) := by
  induction bufs generalizing n with
  | nil => simp [curlDrain_nil]
  | cons b rest ih =>
    have hblt : b.consumed < b.payload.length := h1 b (by simp)
    by_cases hn : n = 0
    · subst hn
      rw [curlDrain_cons_zero]
      exact ⟨h1, h2, by simp⟩
    · by_cases hk : b.payload.length ≤
          b.consumed + min n (b.payload.length - b.consumed)
      · rw [curlDrain_cons_removed n b rest hn hk]
        have hih := ih (n - min n (b.payload.length - b.consumed))
          (fun x hx => h1 x (List.mem_cons_of_mem _ hx))
          (fun x hx => h2 x (List.tail_subset rest hx))
        refine ⟨hih.1, hih.2.1, ?_⟩
        intro x hx
        rcases List.mem_cons.mp hx with hx | hx
        · subst hx
          have hmin := Nat.min_le_right n (b.payload.length - b.consumed)
          simp only
          omega
        · exact hih.2.2 x hx
      · rw [curlDrain_cons_kept n b rest hn hk]
        refine ⟨?_, by simpa using h2, by simp⟩
        intro x hx
        rcases List.mem_cons.mp hx with hx | hx
        · subst hx
          simp only
          omega
        · exact h1 x (List.mem_cons_of_mem _ hx)

theorem curlDrain_ne_nil (n : Nat) (b : Chunk) (rest : List Chunk)
    (hn : n ≠ 0) (hb : b.consumed < b.payload.length) :
    (curlDrain n (b :: rest)).1 ≠ [] := by
  have hpos : 0 < min n (b.payload.length - b.consumed) := by
    have : 0 < n := Nat.pos_of_ne_zero hn
    omega
  by_cases hk : b.payload.length ≤
      b.consumed + min n (b.payload.length - b.consumed)
  · rw [curlDrain_cons_removed n b rest hn hk]
    intro hcontra
    have := congrArg List.length hcontra
    simp only [List.length_append, List.length_nil, curlDrain_take_length] at this
    omega
  · rw [curlDrain_cons_kept n b rest hn hk]
    intro hcontra
    have := congrArg List.length hcontra
    simp only [List.length_nil, curlDrain_take_length] at this
    omega

/-! ## Lemmas about the fill loop and a single read -/

theorem chunkRest_of_zero (b : Chunk) (h : b.consumed = 0) :
    chunkRest b = b.payload := by
  simp [chunkRest, h]

theorem applyChunks_spec (chunks : List (List Nat)) (s : State) :
    ∃ new : List Chunk,
      (applyChunks s chunks).c.buffers = s.c.buffers ++ new ∧
      (∀ b ∈ new, b.consumed = 0 ∧ b.payload ≠ []) ∧
      (applyChunks s chunks).delivered =
        s.delivered ++ (new.map Chunk.payload).flatten ∧
      (applyChunks s chunks).c.rewind = s.c.rewind ∧
      (applyChunks s chunks).is.offset = s.is.offset ∧
      (applyChunks s chunks).startCount = s.startCount ∧
      (applyChunks s chunks).is.error = s.is.error := by
  induction chunks generalizing s with
  | nil =>
    refine ⟨[], by simp [applyChunks], by simp, by simp [applyChunks], ?_, ?_, ?_, ?_⟩
      <;> simp [applyChunks]
  | cons d ds ih =>
    have hstep : applyChunks s (d :: ds) =
        applyChunks (input_curl_writefunction s d) ds := rfl
    obtain ⟨new, hb, hwf, hd, hr, ho, hc, he⟩ := ih (input_curl_writefunction s d)
    by_cases hde : d = []
    · subst hde
      refine ⟨new, ?_, hwf, ?_, ?_, ?_, ?_, ?_⟩ <;>
        simp_all [hstep, input_curl_writefunction]
    · refine ⟨⟨d, 0⟩ :: new, ?_, ?_, ?_, ?_, ?_, ?_, ?_⟩
      · rw [hstep, hb]
        simp [input_curl_writefunction, hde]
      · intro b hbm
        rcases List.mem_cons.mp hbm with hbm | hbm
        · subst hbm
          exact ⟨rfl, hde⟩
        · exact hwf b hbm
      · rw [hstep, hd]
        simp [input_curl_writefunction, hde]
      · rw [hstep, hr]
        simp [input_curl_writefunction, hde]
      · rw [hstep, ho]
        simp [input_curl_writefunction, hde]
      · rw [hstep, hc]
        simp [input_curl_writefunction, hde]
      · rw [hstep, he]
        simp [input_curl_writefunction, hde]

theorem multiInfoRead_spec (msgs : List Bool) (s : State) :
    (input_curl_multi_info_read msgs s).1.c.buffers = s.c.buffers ∧
    (input_curl_multi_info_read msgs s).1.c.rewind = s.c.rewind ∧
    (input_curl_multi_info_read msgs s).1.is.offset = s.is.offset ∧
    (input_curl_multi_info_read msgs s).1.delivered = s.delivered ∧
    (input_curl_multi_info_read msgs s).1.startCount = s.startCount ∧
    ((input_curl_multi_info_read msgs s).2 = true →
      (input_curl_multi_info_read msgs s).1.is.error = s.is.error) := by
  induction msgs generalizing s with
  | nil => simp [input_curl_multi_info_read]
  | cons m rest ih =>
    by_cases hm : m = true
    · subst hm
      have hstep : input_curl_multi_info_read (true :: rest) s =
          input_curl_multi_info_read rest
            { s with c := { s.c with eof := true } } := by
        simp [input_curl_multi_info_read]
      rw [hstep]
      exact ih _
    · have hm' : m = false := by simpa using hm
      subst hm'
      simp [input_curl_multi_info_read]

theorem readFill_spec (steps : List PumpStep) :
    ∀ (m : MCode) (s s' : State) (p : Bool), readFill s m steps = some (s', p) →
      ∃ new : List Chunk,
        s'.c.buffers = s.c.buffers ++ new ∧
        (∀ b ∈ new, b.consumed = 0 ∧ b.payload ≠ []) ∧
        s'.delivered = s.delivered ++ (new.map Chunk.payload).flatten ∧
        s'.c.rewind = s.c.rewind ∧
        s'.is.offset = s.is.offset ∧
        s'.startCount = s.startCount ∧
        (p = true → s'.c.eof = true ∨ s'.c.buffers ≠ []) := by
  induction steps with
  | nil =>
    intro m s s' p h
    simp only [readFill] at h
    by_cases hx : s.c.eof || !s.c.buffers.isEmpty
    · rw [if_pos hx] at h
      have hsp := Option.some.inj h
      injection hsp with h1 h2
      subst h1
      subst h2
      refine ⟨[], by simp, by simp, by simp, by simp, by simp, by simp, ?_⟩
      intro _
      rcases (Bool.or_eq_true _ _).mp hx with hx1 | hx1
      · exact Or.inl hx1
      · right
        simpa [List.isEmpty_iff] using hx1
    · rw [if_neg hx] at h
      simp at h
  | cons st rest ih =>
    intro m s s' p h
    simp only [readFill] at h
    by_cases hx : s.c.eof || !s.c.buffers.isEmpty
    · rw [if_pos hx] at h
      have hsp := Option.some.inj h
      injection hsp with h1 h2
      subst h1
      subst h2
      refine ⟨[], by simp, by simp, by simp, by simp, by simp, by simp, ?_⟩
      intro _
      rcases (Bool.or_eq_true _ _).mp hx with hx1 | hx1
      · exact Or.inl hx1
      · right
        simpa [List.isEmpty_iff] using hx1
    · rw [if_neg hx] at h
      by_cases hsel : m ≠ MCode.callAgain ∧ st.sel ≠ SelectResult.ready
      · rw [if_pos hsel] at h
        have hsp := Option.some.inj h
        injection hsp with h1 h2
        subst h1
        subst h2
        exact ⟨[], by simp, by simp, by simp, by simp, by simp, by simp, by simp⟩
      · rw [if_neg hsel] at h
        obtain ⟨newA, hba, hwfa, hda, hra, hoa, hca, hea⟩ :=
          applyChunks_spec st.chunks s
        rcases hmc : st.mcode with _ | _ | _
        · -- MCode.ok: run multi_info_read, then maybe loop
          rw [hmc] at h
          rcases hmir : input_curl_multi_info_read st.msgs (applyChunks s st.chunks)
            with ⟨s2, b2⟩
          obtain ⟨hb2, hr2, ho2, hd2, hc2, he2⟩ := multiInfoRead_spec st.msgs
            (applyChunks s st.chunks)
          rw [hmir] at h hb2 hr2 ho2 hd2 hc2 he2
          simp only at hb2 hr2 ho2 hd2 hc2 he2
          rcases b2 with _ | _
          · simp only at h
            have hsp := Option.some.inj h
            injection hsp with h1 h2
            subst h1
            subst h2
            refine ⟨newA, by rw [hb2, hba], hwfa, by rw [hd2, hda],
              by rw [hr2, hra], by rw [ho2, hoa], by rw [hc2, hca], by simp⟩
          · simp only at h
            obtain ⟨newB, hbb, hwfb, hdb, hrb, hob, hcb, heb⟩ := ih _ _ _ _ h
            refine ⟨newA ++ newB, ?_, ?_, ?_, ?_, ?_, ?_, heb⟩
            · rw [hbb, hb2, hba, List.append_assoc]
            · intro b hbm
              rcases List.mem_append.mp hbm with hbm | hbm
              · exact hwfa b hbm
              · exact hwfb b hbm
            · rw [hdb, hd2, hda]
              simp
            · rw [hrb, hr2, hra]
            · rw [hob, ho2, hoa]
            · rw [hcb, hc2, hca]
        · -- MCode.callAgain: identical continuation
          rw [hmc] at h
          rcases hmir : input_curl_multi_info_read st.msgs (applyChunks s st.chunks)
            with ⟨s2, b2⟩
          obtain ⟨hb2, hr2, ho2, hd2, hc2, he2⟩ := multiInfoRead_spec st.msgs
            (applyChunks s st.chunks)
          rw [hmir] at h hb2 hr2 ho2 hd2 hc2 he2
          simp only at hb2 hr2 ho2 hd2 hc2 he2
          rcases b2 with _ | _
          · simp only at h
            have hsp := Option.some.inj h
            injection hsp with h1 h2
            subst h1
            subst h2
            refine ⟨newA, by rw [hb2, hba], hwfa, by rw [hd2, hda],
              by rw [hr2, hra], by rw [ho2, hoa], by rw [hc2, hca], by simp⟩
          · simp only at h
            obtain ⟨newB, hbb, hwfb, hdb, hrb, hob, hcb, heb⟩ := ih _ _ _ _ h
            refine ⟨newA ++ newB, ?_, ?_, ?_, ?_, ?_, ?_, heb⟩
            · rw [hbb, hb2, hba, List.append_assoc]
            · intro b hbm
              rcases List.mem_append.mp hbm with hbm | hbm
              · exact hwfa b hbm
              · exact hwfb b hbm
            · rw [hdb, hd2, hda]
              simp
            · rw [hrb, hr2, hra]
            · rw [hob, ho2, hoa]
            · rw [hcb, hc2, hca]
        · -- MCode.failed: perform error sets eof and returns
          rw [hmc] at h
          simp only at h
          have hsp := Option.some.inj h
          injection hsp with h1 h2
          subst h1
          subst h2
          refine ⟨newA, by simpa using hba, hwfa, by simpa using hda,
            by simpa using hra, by simpa using hoa, by simpa using hca, by simp⟩

theorem readFill_nil_exit (s : State) (m : MCode)
    (h : s.c.eof = true ∨ s.c.buffers ≠ []) :
    readFill s m [] = some (s, true) := by
  simp only [readFill]
  rw [if_pos]
  rcases h with h | h
  · simp [h]
  · simp [List.isEmpty_iff, h]

theorem input_curl_read_spec (s : State) (n : Nat) (steps : List PumpStep)
    (out : List Nat) (s' : State)
    (h : input_curl_read s n steps = some (out, s')) :
    ∃ new : List Nat, s'.delivered = s.delivered ++ new ∧
      out ++ pendingBytes s' = pendingBytes s ++ new ∧
      s'.is.offset = s.is.offset + (out.length : Int) ∧
      s'.startCount = s.startCount := by
  simp only [input_curl_read] at h
  rcases hf : readFill s MCode.callAgain steps with _ | ⟨s1, p⟩
  · rw [hf] at h
    simp at h
  · rw [hf] at h
    obtain ⟨newC, hb, hwf, hd, hr, ho, hc, hexit⟩ :=
      readFill_spec steps MCode.callAgain s s1 p hf
    have hpend1 : pendingBytes s1 =
        pendingBytes s ++ (newC.map Chunk.payload).flatten := by
      unfold pendingBytes
      rw [hb, List.map_append, List.flatten_append]
      congr 1
      apply congrArg
      exact List.map_congr_left fun b hbm => chunkRest_of_zero b (hwf b hbm).1
    rcases p with _ | _
    · simp only at h
      have hsp := Option.some.inj h
      injection hsp with h1 h2
      subst h1
      subst h2
      exact ⟨(newC.map Chunk.payload).flatten, hd, by simpa using hpend1,
        by simp [ho], hc⟩
    · simp only at h
      rcases hdr : curlDrain n s1.c.buffers with ⟨o2, b2, r2⟩
      rw [hdr] at h
      simp only at h
      have hsp := Option.some.inj h
      injection hsp with h1 h2
      subst h1
      subst h2
      have hpd := curlDrain_pending n s1.c.buffers
      rw [hdr] at hpd
      simp only at hpd
      refine ⟨(newC.map Chunk.payload).flatten, by simpa using hd, ?_,
        by simp [ho], by simpa using hc⟩
      show o2 ++ (List.map chunkRest b2).flatten =
        pendingBytes s ++ (List.map Chunk.payload newC).flatten
      rw [hpd]
      exact hpend1

theorem runReadsT_spec :
    ∀ (ks : List (Nat × List PumpStep)) (s : State) (out : List Nat) (s' : State),
      runReadsT s ks = some (out, s') →
      ∃ new : List Nat, s'.delivered = s.delivered ++ new ∧
        out ++ pendingBytes s' = pendingBytes s ++ new ∧
        s'.is.offset = s.is.offset + (out.length : Int) ∧
        s'.startCount = s.startCount := by
  intro ks
  induction ks with
  | nil =>
    intro s out s' h
    simp only [runReadsT] at h
    have hsp := Option.some.inj h
    injection hsp with h1 h2
    subst h1
    subst h2
    exact ⟨[], by simp, by simp, by simp, rfl⟩
  | cons k ks ih =>
    intro s out s' h
    rcases k with ⟨n, tr⟩
    simp only [runReadsT] at h
    rcases hr1 : input_curl_read s n tr with _ | ⟨out1, s1⟩
    · rw [hr1] at h
      simp at h
    · rw [hr1] at h
      simp only at h
      rcases hr2 : runReadsT s1 ks with _ | ⟨out2, s2⟩
      · rw [hr2] at h
        simp at h
      · rw [hr2] at h
        simp only at h
        have hsp := Option.some.inj h
        injection hsp with h1 h2
        subst h1
        subst h2
        obtain ⟨new1, hd1, hp1, ho1, hc1⟩ :=
          input_curl_read_spec s n tr out1 s1 hr1
        obtain ⟨new2, hd2, hp2, ho2, hc2⟩ := ih s1 out2 s2 hr2
        refine ⟨new1 ++ new2, ?_, ?_, ?_, ?_⟩
        · rw [hd2, hd1, List.append_assoc]
        · calc (out1 ++ out2) ++ pendingBytes s2
              = out1 ++ (out2 ++ pendingBytes s2) := by rw [List.append_assoc]
            _ = out1 ++ (pendingBytes s1 ++ new2) := by rw [hp2]
            _ = (out1 ++ pendingBytes s1) ++ new2 := by rw [List.append_assoc]
            _ = (pendingBytes s ++ new1) ++ new2 := by rw [hp1]
            _ = pendingBytes s ++ (new1 ++ new2) := by rw [List.append_assoc]
        · rw [ho2, ho1]
          simp only [List.length_append]
          push_cast
          ring
        · rw [hc2, hc1]

theorem runReads_spec :
    ∀ (ks : List Nat) (s : State) (out : List Nat) (s' : State),
      runReads s ks = some (out, s') →
      ∃ new : List Nat, s'.delivered = s.delivered ++ new ∧
        out ++ pendingBytes s' = pendingBytes s ++ new ∧
        s'.is.offset = s.is.offset + (out.length : Int) ∧
        s'.startCount = s.startCount := by
  intro ks
  induction ks with
  | nil =>
    intro s out s' h
    simp only [runReads] at h
    have hsp := Option.some.inj h
    injection hsp with h1 h2
    subst h1
    subst h2
    exact ⟨[], by simp, by simp, by simp, rfl⟩
  | cons n ks ih =>
    intro s out s' h
    simp only [runReads] at h
    rcases hr1 : input_curl_read s n [] with _ | ⟨out1, s1⟩
    · rw [hr1] at h
      simp at h
    · rw [hr1] at h
      simp only at h
      rcases hr2 : runReads s1 ks with _ | ⟨out2, s2⟩
      · rw [hr2] at h
        simp at h
      · rw [hr2] at h
        simp only at h
        have hsp := Option.some.inj h
        injection hsp with h1 h2
        subst h1
        subst h2
        obtain ⟨new1, hd1, hp1, ho1, hc1⟩ :=
          input_curl_read_spec s n [] out1 s1 hr1
        obtain ⟨new2, hd2, hp2, ho2, hc2⟩ := ih s1 out2 s2 hr2
        refine ⟨new1 ++ new2, ?_, ?_, ?_, ?_⟩
        · rw [hd2, hd1, List.append_assoc]
        · calc (out1 ++ out2) ++ pendingBytes s2
              = out1 ++ (out2 ++ pendingBytes s2) := by rw [List.append_assoc]
            _ = out1 ++ (pendingBytes s1 ++ new2) := by rw [hp2]
            _ = (out1 ++ pendingBytes s1) ++ new2 := by rw [List.append_assoc]
            _ = (pendingBytes s ++ new1) ++ new2 := by rw [hp1]
            _ = pendingBytes s ++ (new1 ++ new2) := by rw [List.append_assoc]
        · rw [ho2, ho1]
          simp only [List.length_append]
          push_cast
          ring
        · rw [hc2, hc1]

def openedState : State :=
  { is := { offset := 0, size := -1, seekable := false, mime := none,
            meta_name := none, error := 0, ready := false }
    c := { buffers := [], rewind := [], eof := false, buffered := false,
           easy := true, range := none }
    startCount := 1
    delivered := [] }

theorem curlFastForward_single (p : List Nat) (hp : p.length ≠ 0) :
    curlFastForward (p.length : Int) [⟨p, 0⟩] [] 0 =
      ([], [⟨p, p.length⟩], (p.length : Int)) := by
  rw [curlFastForward]
  rw [if_neg (by omega)]
  norm_num [consume_buffer, curlFastForward]

theorem seek_ff_overflow (s : State) (p : List Nat)
    (hbufs : s.c.buffers = [⟨p, 0⟩]) (hrew : s.c.rewind = [])
    (hoff : s.is.offset = 0) (hseek : s.is.seekable = true)
    (hlen : p.length ≠ 0) :
    input_curl_seek s (p.length : Int) Whence.set true [] true [] =
      (true, setQueues s [] [⟨p, p.length⟩] (p.length : Int)) := by
  rw [input_curl_seek]
  rw [if_neg (fun h => hlen (by exact_mod_cast h.2.1))]
  rw [if_neg (fun h => hlen (by exact_mod_cast h.2.1))]
  rw [if_neg (by simp [hseek])]
  simp only [seekTarget]
  rw [if_neg (by omega)]
  rw [hbufs, hrew, hoff, curlFastForward_single p hlen]
  simp only
  rw [if_pos trivial]
  rfl

def c2state : State :=
  { is := { offset := 0, size := -1, seekable := true, mime := none,
            meta_name := none, error := 0, ready := true }
    c := { buffers := [⟨List.replicate 70000 0, 0⟩], rewind := [], eof := false,
           buffered := true, easy := true, range := none }
    startCount := 1
    delivered := List.replicate 70000 0 }

theorem replicate70000_length_int : ((List.replicate 70000 (0:Nat)).length : Int) = 70000 := by
  rw [List.length_replicate]
  norm_num
theorem c2state_seek_eq :
    input_curl_seek c2state 70000 Whence.set true [] true [] =
      (true, setQueues c2state [] [⟨List.replicate 70000 0,
        (List.replicate 70000 (0:Nat)).length⟩] 70000) := by
  have hs := seek_ff_overflow c2state (List.replicate 70000 0) rfl rfl rfl rfl
    (by rw [List.length_replicate]; norm_num)
  rw [replicate70000_length_int] at hs
  exact hs
/-- Counterexample for claim C2: from a reachable state holding one
delivered 70000-byte chunk, the fast-forward seek to offset 70000 ends
with 70000 bytes retained in the rewind cache, exceeding the 64 KiB limit
(the fast-forward path applies no eviction). -/
theorem claim_c2_counterexample :
    (input_curl_seek c2state 70000 Whence.set true [] true []).1 = true ∧
    rewindBytes (input_curl_seek c2state 70000 Whence.set true [] true []).2 =
      70000 ∧
    ¬((rewindBytes (input_curl_seek c2state 70000 Whence.set true [] true []).2 : Int)
      ≤ max_rewind_size) := by
  have h1 : rewindBytes (true, setQueues c2state [] [⟨List.replicate 70000 0,
      (List.replicate 70000 (0:Nat)).length⟩] 70000).2 =
      chunkSizes [⟨List.replicate 70000 0,
      (List.replicate 70000 (0:Nat)).length⟩] := rfl
  have h2 : (⟨List.replicate 70000 0,
      (List.replicate 70000 (0:Nat)).length⟩ : Chunk).payload.length =
      (List.replicate 70000 (0:Nat)).length := rfl
  have hrb : rewindBytes (input_curl_seek c2state 70000 Whence.set true []
      true []).2 = 70000 := by
    rw [c2state_seek_eq, h1, chunkSizes_cons, chunkSizes_nil, h2, List.length_replicate]
  refine ⟨by rw [c2state_seek_eq], hrb, ?_⟩
  rw [hrb, max_rewind_size]
  norm_num

theorem curlFastForward_stop (t : Int) (bufs rew : List Chunk) (off : Int)
    (h : t ≤ off) : curlFastForward t bufs rew off = (bufs, rew, off) := by
  cases bufs with
  | nil => rw [curlFastForward]
  | cons b rest => rw [curlFastForward, if_pos h]

theorem read_at_eof_empty : ∀ (s : State) (n : Nat), s.c.eof = true →
    s.c.buffers = [] → s.c.rewind = [] → input_curl_read s n [] = some ([], s) := by
  rintro ⟨⟨off, sz, sk, mi, mn, er, rd⟩, ⟨bufs, rew, eof0, bf, ez, rg⟩, k, d⟩
    n heof hbufs hrew
  simp only at heof hbufs hrew
  subst heof
  subst hbufs
  subst hrew
  rw [input_curl_read, readFill_nil_exit _ MCode.callAgain (Or.inl rfl)]
  simp [curlDrain_nil]

/-- Claim C2 (amended): at the end of every read call the disjunction
holds that the rewind cache is empty or the logical offset is at most
64 KiB (the read path clears the entire cache whenever the offset exceeds
the limit while retaining, and never retains otherwise); the fast-forward
seek path feeds skipped chunks into the cache without applying this
eviction, so a fast-forward seek can exceed the limit (see the
counterexample). -/
theorem claim_c2_amended :
    ∀ (s : State) (n : Nat) (steps : List PumpStep) (out : List Nat) (s' : State),
      input_curl_read s n steps = some (out, s') →
      (s.c.rewind = [] ∨ s.is.offset ≤ max_rewind_size) →
      (s'.c.rewind = [] ∨ s'.is.offset ≤ max_rewind_size) := by
  intro s n steps out s' h hpre
  simp only [input_curl_read] at h
  rcases hf : readFill s MCode.callAgain steps with _ | ⟨s1, p⟩
  · rw [hf] at h
    simp at h
  · rw [hf] at h
    obtain ⟨newC, hb, hwf, hd, hr, ho, hc, hexit⟩ :=
      readFill_spec steps MCode.callAgain s s1 p hf
    rcases p with _ | _
    · simp only at h
      have hsp := Option.some.inj h
      injection hsp with h1 h2
      subst h1
      subst h2
      rw [hr, ho]
      exact hpre
    · simp only at h
      rcases hdr : curlDrain n s1.c.buffers with ⟨o2, b2, r2⟩
      rw [hdr] at h
      simp only at h
      have hsp := Option.some.inj h
      injection hsp with h1 h2
      subst h1
      subst h2
      by_cases hu : (!s1.c.rewind.isEmpty || decide (s1.is.offset = 0)) = true
      · by_cases hcl : max_rewind_size < s1.is.offset + (o2.length : Int)
        · left
          show (if (!s1.c.rewind.isEmpty || decide (s1.is.offset = 0)) = true ∧
              max_rewind_size < s1.is.offset + (o2.length : Int) then []
            else if (!s1.c.rewind.isEmpty || decide (s1.is.offset = 0)) = true
              then s1.c.rewind ++ r2 else s1.c.rewind) = []
          rw [if_pos ⟨hu, hcl⟩]
        · right
          show s1.is.offset + (o2.length : Int) ≤ max_rewind_size
          omega
      · left
        have hrew1 : s1.c.rewind = [] := by
          rcases hb2 : s1.c.rewind with _ | ⟨x, xs⟩
          · rfl
          · rw [hb2] at hu
            simp at hu
        show (if (!s1.c.rewind.isEmpty || decide (s1.is.offset = 0)) = true ∧
            max_rewind_size < s1.is.offset + (o2.length : Int) then []
          else if (!s1.c.rewind.isEmpty || decide (s1.is.offset = 0)) = true
            then s1.c.rewind ++ r2 else s1.c.rewind) = []
        rw [if_neg (fun hcon => hu hcon.1), if_neg hu, hrew1]

def c4state : State :=
  { is := { offset := 5, size := -1, seekable := false, mime := none,
            meta_name := none, error := 0, ready := true }
    c := { buffers := [⟨[1, 2, 3, 4, 5, 6], 5⟩], rewind := [], eof := false,
           buffered := true, easy := true, range := none }
    startCount := 1
    delivered := [1, 2, 3, 4, 5, 6] }

/-- Counterexample for claim C4: a non-seekable stream at offset 5
receives a seek whose target equals the current offset, and the seek
fails instead of succeeding. -/
theorem claim_c4_counterexample :
    c4state.is.seekable = false ∧
    seekTarget c4state 5 Whence.set = some c4state.is.offset ∧
    (input_curl_seek c4state 5 Whence.set true [] true []).1 = false ∧
    (input_curl_seek c4state 5 Whence.set true [] true []).2 = c4state := by
  decide

/-- Claim C4 (amended): a seek whose computed absolute target equals the
current logical offset succeeds with no work and no state change provided
the stream is seekable or the request is literally SEEK_SET 0; on a
non-seekable stream whose request is not SEEK_SET 0 every seek fails,
also leaving the state unchanged. -/
theorem claim_c4_amended :
    (∀ (s : State) (off : Int) (whence : Whence) (io : Bool)
        (sc : List (List Nat)) (so : Bool) (ms : List Bool),
      seekTarget s off whence = some s.is.offset → 0 ≤ s.is.offset →
      (s.is.seekable = true ∨ (whence = Whence.set ∧ off = 0)) →
      input_curl_seek s off whence io sc so ms = (true, s)) ∧
    (∀ (s : State) (off : Int) (whence : Whence) (io : Bool)
        (sc : List (List Nat)) (so : Bool) (ms : List Bool),
      s.is.seekable = false → ¬(whence = Whence.set ∧ off = 0) →
      input_curl_seek s off whence io sc so ms = (false, s)) := by
  constructor
  · intro s off whence io sc so ms ht h0 hcase
    have hoffeq : ∀ (hw : whence = Whence.set), off = s.is.offset := by
      intro hw
      rw [hw] at ht
      simpa [seekTarget] using ht
    by_cases h1 : whence = Whence.set ∧ off = 0 ∧ s.is.offset = 0
    · rw [input_curl_seek, if_pos h1]
    · have h2 : ¬(whence = Whence.set ∧ off = 0 ∧
          input_curl_can_rewind s = true) := by
        rintro ⟨hw, ho, _⟩
        exact h1 ⟨hw, ho, by rw [← hoffeq hw, ho]⟩
      have hseek : s.is.seekable = true := by
        rcases hcase with hh | hh
        · exact hh
        · exact absurd ⟨hh.1, hh.2, by rw [← hoffeq hh.1, hh.2]⟩ h1
      rw [input_curl_seek, if_neg h1, if_neg h2, if_neg (by simp [hseek])]
      rw [ht]
      simp only
      rw [if_neg (by omega)]
      rw [curlFastForward_stop _ _ _ _ le_rfl]
      simp only
      rw [if_pos trivial]
  · intro s off whence io sc so ms hseek hnot
    have c1 : ¬(whence = Whence.set ∧ off = 0 ∧ s.is.offset = 0) := by
      rintro ⟨hw, ho, _⟩
      exact hnot ⟨hw, ho⟩
    have c2 : ¬(whence = Whence.set ∧ off = 0 ∧
        input_curl_can_rewind s = true) := by
      rintro ⟨hw, ho, _⟩
      exact hnot ⟨hw, ho⟩
    rw [input_curl_seek, if_neg c1, if_neg c2, if_pos (by simp [hseek])]

/-- Claim C8: for every seekable stream with known total size, a seek
whose absolute target equals the total size and is not already satisfied
by the no-op, rewind or fast-forward paths succeeds with no new request:
the session is torn down, eof is synthesized, `input_curl_eof` becomes
true and every subsequent read returns zero bytes. -/
theorem claim_c8 :
    ∀ (s : State) (sz : Int) (io : Bool) (sc : List (List Nat)) (so : Bool)
      (ms : List Bool) (n : Nat),
      s.is.seekable = true → s.is.size = sz → 0 ≤ sz →
      ¬(sz = 0 ∧ (s.is.offset = 0 ∨ input_curl_can_rewind s = true)) →
      (curlFastForward sz s.c.buffers s.c.rewind s.is.offset).2.2 ≠ sz →
      ∃ s' : State, input_curl_seek s sz Whence.set io sc so ms = (true, s') ∧
        s'.c.eof = true ∧ s'.c.buffers = [] ∧ s'.c.rewind = [] ∧
        s'.is.offset = sz ∧ s'.startCount = s.startCount ∧
        input_curl_eof s' = true ∧
        input_curl_read s' n [] = some ([], s') := by
  intro s sz io sc so ms n hseek hsz h0 hpre hff
  have c1 : ¬(Whence.set = Whence.set ∧ sz = 0 ∧ s.is.offset = 0) := by
    rintro ⟨_, hz, ho⟩
    exact hpre ⟨hz, Or.inl ho⟩
  have c2 : ¬(Whence.set = Whence.set ∧ sz = 0 ∧
      input_curl_can_rewind s = true) := by
    rintro ⟨_, hz, hcr⟩
    exact hpre ⟨hz, Or.inr hcr⟩
  rw [input_curl_seek, if_neg c1, if_neg c2, if_neg (by simp [hseek])]
  simp only [seekTarget]
  rw [if_neg (by omega)]
  rcases hffv : curlFastForward sz s.c.buffers s.c.rewind s.is.offset with
    ⟨b2, r2, o2⟩
  rw [hffv] at hff
  simp only at hff
  simp only
  rw [if_neg (fun hcon => hff hcon.symm)]
  rw [if_pos (by simpa using hsz.symm)]
  refine ⟨_, rfl, rfl, rfl, rfl, rfl, rfl, ?_, ?_⟩
  · rfl
  · exact read_at_eof_empty _ n rfl rfl rfl

/-- Claim C10: on the reconnect path of seek the old handle, buffer queue
and rewind cache are freed and the logical offset is set to the target
before the new request is created; hence when creating the new request
fails (or submitting it fails with nothing delivered), seek returns
failure but the offset already equals the target and both queues are
empty: the reconnect path is not atomic on failure. -/
theorem claim_c10 :
    ∀ (s : State) (off t : Int) (whence : Whence) (initOk : Bool)
      (sendChunks : List (List Nat)) (sendOk : Bool) (msgs : List Bool),
      s.is.seekable = true →
      ¬(whence = Whence.set ∧ off = 0 ∧
        (s.is.offset = 0 ∨ input_curl_can_rewind s = true)) →
      seekTarget s off whence = some t → 0 ≤ t →
      (curlFastForward t s.c.buffers s.c.rewind s.is.offset).2.2 ≠ t →
      t ≠ s.is.size →
      (initOk = false ∨ (sendChunks = [] ∧ sendOk = false)) →
      ∃ s' : State,
        input_curl_seek s off whence initOk sendChunks sendOk msgs =
          (false, s') ∧
        s'.is.offset = t ∧ s'.c.buffers = [] ∧ s'.c.rewind = [] ∧
        s'.c.easy = initOk := by
  intro s off t whence initOk sendChunks sendOk msgs hseek hpre ht h0 hff hsz hfail
  have c1 : ¬(whence = Whence.set ∧ off = 0 ∧ s.is.offset = 0) := by
    rintro ⟨hw, ho, hcur⟩
    exact hpre ⟨hw, ho, Or.inl hcur⟩
  have c2 : ¬(whence = Whence.set ∧ off = 0 ∧
      input_curl_can_rewind s = true) := by
    rintro ⟨hw, ho, hcr⟩
    exact hpre ⟨hw, ho, Or.inr hcr⟩
  rw [input_curl_seek, if_neg c1, if_neg c2, if_neg (by simp [hseek]), ht]
  simp only
  rw [if_neg (by omega)]
  rcases hffv : curlFastForward t s.c.buffers s.c.rewind s.is.offset with
    ⟨b2, r2, o2⟩
  rw [hffv] at hff
  simp only at hff
  simp only
  rw [if_neg (fun hcon => hff hcon.symm)]
  rw [if_neg (by simpa using hsz)]
  rcases hfail with hio | ⟨hch, hso⟩
  · subst hio
    simp only [Bool.not_false, if_pos]
    exact ⟨_, rfl, rfl, rfl, rfl, rfl⟩
  · subst hch
    subst hso
    rcases initOk with _ | _
    · simp only [Bool.not_false, if_pos]
      exact ⟨_, rfl, rfl, rfl, rfl, rfl⟩
    · simp only [Bool.not_true, Bool.false_eq_true, if_neg, applyChunks]
      simp only [List.foldl_nil]
      exact ⟨_, rfl, rfl, rfl, rfl, rfl⟩

def openedFailedState : State :=
  { is := { offset := 0, size := -1, seekable := false, mime := none,
            meta_name := none, error := -1, ready := true }
    c := { buffers := [⟨[7, 8], 0⟩], rewind := [], eof := true,
           buffered := true, easy := true, range := none }
    startCount := 1
    delivered := [7, 8] }

def failStep : PumpStep := ⟨SelectResult.ready, MCode.ok, [[7, 8]], [false]⟩

def drainedFailedState : State :=
  { is := { offset := 2, size := -1, seekable := false, mime := none,
            meta_name := none, error := -1, ready := true }
    c := { buffers := [], rewind := [⟨[7, 8], 2⟩], eof := true,
           buffered := true, easy := true, range := none }
    startCount := 1
    delivered := [7, 8] }

/-- Counterexample for claim C5: the engine delivers two bytes and
reports failure in the same poll; the read in progress returns zero bytes
with the error stored, but the next read still returns the two queued
bytes instead of reporting the error. -/
theorem claim_c5_counterexample :
    input_curl_read openedState 5 [failStep] = some ([], openedFailedState) ∧
    openedFailedState.is.error = -1 ∧
    openedFailedState.c.eof = true ∧
    input_curl_read openedFailedState 5 [] =
      some ([7, 8], drainedFailedState) := by
  decide

/-- Claim C5 (amended): after the transfer engine reports a failure the
stored error and eof flag persist and the pump never runs again, so no
new bytes are accepted; but bytes already queued at failure time are
still returned, in order, by subsequent reads, and only once the queue is
drained does every read return zero bytes. -/
theorem claim_c5_amended :
    ∀ (s : State) (n : Nat), s.c.eof = true →
      ∃ (out : List Nat) (s' : State),
        input_curl_read s n [] = some (out, s') ∧
        out ++ pendingBytes s' = pendingBytes s ∧
        s'.is.error = s.is.error ∧ s'.c.eof = true ∧
        s'.delivered = s.delivered ∧
        (pendingBytes s = [] → out = []) := by
  intro s n heof
  rcases hread : input_curl_read s n [] with _ | ⟨out, s'⟩
  · exfalso
    rw [input_curl_read, readFill_nil_exit s MCode.callAgain (Or.inl heof)]
      at hread
    simp only at hread
    rcases hdr : curlDrain n s.c.buffers with ⟨o2, b2, r2⟩
    rw [hdr] at hread
    simp at hread
  · have hread0 := hread
    rw [input_curl_read, readFill_nil_exit s MCode.callAgain (Or.inl heof)]
      at hread
    simp only at hread
    rcases hdr : curlDrain n s.c.buffers with ⟨o2, b2, r2⟩
    rw [hdr] at hread
    simp only at hread
    have hsp := Option.some.inj hread
    injection hsp with h1 h2
    have hpd := curlDrain_pending n s.c.buffers
    rw [hdr] at hpd
    simp only at hpd
    have hpend : out ++ pendingBytes s' = pendingBytes s := by
      rw [← h1, ← h2]
      exact hpd
    refine ⟨out, s', rfl, hpend, by rw [← h2], by rw [← h2]; exact heof,
      by rw [← h2], ?_⟩
    intro hps
    rw [hps] at hpend
    exact List.append_eq_nil.mp hpend |>.1

def pollStep : PumpStep := ⟨SelectResult.ready, MCode.ok, [], []⟩
def timeoutStep : PumpStep := ⟨SelectResult.timeout, MCode.ok, [], []⟩

/-- Counterexample for claim C9: with the transfer still active, no data,
no error and no terminal state, a 1-second select timeout makes read
return zero bytes to the caller. -/
theorem claim_c9_counterexample :
    input_curl_read openedState 4 [pollStep, timeoutStep] =
      some ([], openedState) ∧
    openedState.c.eof = false ∧ openedState.is.error = 0 ∧
    input_curl_eof openedState = false := by
  decide

theorem multiInfoRead_false_error :
    ∀ (msgs : List Bool) (s : State),
      (input_curl_multi_info_read msgs s).2 = false →
      (input_curl_multi_info_read msgs s).1.is.error = -1 := by
  intro msgs
  induction msgs with
  | nil =>
    intro s h
    simp [input_curl_multi_info_read] at h
  | cons m rest ih =>
    intro s h
    rcases m with _ | _
    · simp [input_curl_multi_info_read]
    · have hstep : input_curl_multi_info_read (true :: rest) s =
          input_curl_multi_info_read rest
            { s with c := { s.c with eof := true } } := by
        simp [input_curl_multi_info_read]
      rw [hstep] at h ⊢
      exact ih _ h

theorem readFill_false_aux :
    ∀ (tr : List PumpStep) (m : MCode) (s s' : State),
      readFill s m tr = some (s', false) →
      s'.c.eof = false → s'.is.error = 0 →
      ∃ st ∈ tr, st.sel ≠ SelectResult.ready := by
  intro tr
  induction tr with
  | nil =>
    intro m s s' h he hr
    simp only [readFill] at h
    by_cases hx : s.c.eof || !s.c.buffers.isEmpty
    · rw [if_pos hx] at h
      have hsp := Option.some.inj h
      injection hsp with h1 h2
      simp at h2
    · rw [if_neg hx] at h
      simp at h
  | cons st rest ih =>
    intro m s s' h he hr
    simp only [readFill] at h
    by_cases hx : s.c.eof || !s.c.buffers.isEmpty
    · rw [if_pos hx] at h
      have hsp := Option.some.inj h
      injection hsp with h1 h2
      simp at h2
    · rw [if_neg hx] at h
      by_cases hsel : m ≠ MCode.callAgain ∧ st.sel ≠ SelectResult.ready
      · exact ⟨st, by simp, hsel.2⟩
      · rw [if_neg hsel] at h
        rcases hmc : st.mcode with _ | _ | _
        · rw [hmc] at h
          rcases hmir : input_curl_multi_info_read st.msgs
            (applyChunks s st.chunks) with ⟨s2, b2⟩
          rw [hmir] at h
          rcases b2 with _ | _
          · simp only at h
            have hsp := Option.some.inj h
            injection hsp with h1 h2
            subst h1
            have herr := multiInfoRead_false_error st.msgs
              (applyChunks s st.chunks)
            rw [hmir] at herr
            simp only at herr
            rw [herr trivial] at hr
            simp at hr
          · simp only at h
            obtain ⟨st2, hm2, hs2⟩ := ih _ _ _ h he hr
            exact ⟨st2, List.mem_cons_of_mem _ hm2, hs2⟩
        · rw [hmc] at h
          rcases hmir : input_curl_multi_info_read st.msgs
            (applyChunks s st.chunks) with ⟨s2, b2⟩
          rw [hmir] at h
          rcases b2 with _ | _
          · simp only at h
            have hsp := Option.some.inj h
            injection hsp with h1 h2
            subst h1
            have herr := multiInfoRead_false_error st.msgs
              (applyChunks s st.chunks)
            rw [hmir] at herr
            simp only at herr
            rw [herr trivial] at hr
            simp at hr
          · simp only at h
            obtain ⟨st2, hm2, hs2⟩ := ih _ _ _ h he hr
            exact ⟨st2, List.mem_cons_of_mem _ hm2, hs2⟩
        · rw [hmc] at h
          simp only at h
          have hsp := Option.some.inj h
          injection hsp with h1 h2
          subst h1
          simp at he

/-- Claim C9 (amended): a read call returns zero bytes while the transfer
is still active (no eof, no error, a nonzero request against a
well-formed queue) only when some wait step in its engine trace failed to
report socket readiness (select timeout or select error); perform-level
retry requests and ready sockets are always retried internally. -/
theorem claim_c9_amended :
    ∀ (tr : List PumpStep) (s : State) (n : Nat) (s' : State),
      (∀ b ∈ s.c.buffers, b.consumed < b.payload.length) → n ≠ 0 →
      input_curl_read s n tr = some ([], s') →
      s'.c.eof = false → s'.is.error = 0 →
      ∃ st ∈ tr, st.sel ≠ SelectResult.ready := by
  intro tr s n s' hwf hn h he hr
  simp only [input_curl_read] at h
  rcases hf : readFill s MCode.callAgain tr with _ | ⟨s1, p⟩
  · rw [hf] at h
    simp at h
  · rw [hf] at h
    rcases p with _ | _
    · simp only at h
      have hsp := Option.some.inj h
      injection hsp with h1 h2
      subst h2
      exact readFill_false_aux tr MCode.callAgain s s1 hf he hr
    · simp only at h
      obtain ⟨newC, hb, hwfn, hd, hrw, ho, hc, hexit⟩ :=
        readFill_spec tr MCode.callAgain s s1 true hf
      rcases hdr : curlDrain n s1.c.buffers with ⟨o2, b2, r2⟩
      rw [hdr] at h
      simp only at h
      have hsp := Option.some.inj h
      injection hsp with h1 h2
      exfalso
      rcases hexit rfl with heof1 | hbne
      · -- the loop exited at eof, but the final state has eof = false
        rw [← h2] at he
        simp only at he
        rw [he] at heof1
        simp at heof1
      · -- the loop exited with data: a nonzero read drains at least one byte
        rcases hbufs1 : s1.c.buffers with _ | ⟨b, brest⟩
        · exact hbne hbufs1
        · have hblt : b.consumed < b.payload.length := by
            have hmem : b ∈ s.c.buffers ++ newC := by
              rw [← hb, hbufs1]
              simp
            rcases List.mem_append.mp hmem with hm | hm
            · exact hwf b hm
            · rw [(hwfn b hm).1]
              exact List.length_pos.mpr (hwfn b hm).2
          have hne := curlDrain_ne_nil n b brest hn hblt
          rw [← hbufs1, hdr] at hne
          simp only at hne
          exact hne h1

/-! ## Lemmas about the header interpreter -/

theorem memchrColon_append (name rest : List Char) (h : ':' ∉ name) :
    memchrColon (name ++ ':' :: rest) = some (name, rest) := by
  induction name with
  | nil => simp [memchrColon]
  | cons c cs ih =>
    have hc : c ≠ ':' := fun hcc => h (by simp [hcc])
    have hcs : ':' ∉ cs := fun hm => h (List.mem_cons_of_mem _ hm)
    rw [List.cons_append, memchrColon, if_neg hc, ih hcs]

theorem dropWhile_all_append (p : Char → Bool) (a b : List Char)
    (h : ∀ x ∈ a, p x = true) :
    List.dropWhile p (a ++ b) = List.dropWhile p b := by
  induction a with
  | nil => simp
  | cons c cs ih =>
    simp only [List.cons_append, List.dropWhile_cons, if_pos (h c (by simp))]
    exact ih fun x hx => h x (List.mem_cons_of_mem _ hx)

theorem dropWhile_head_false (p : Char → Bool) (c : Char) (cs : List Char)
    (h : p c = false) : List.dropWhile p (c :: cs) = c :: cs := by
  simp [List.dropWhile_cons, h]

theorem dropWhile_all_false (p : Char → Bool) (l : List Char)
    (h : ∀ x ∈ l, p x = false) : List.dropWhile p l = l := by
  cases l with
  | nil => rfl
  | cons c cs => exact dropWhile_head_false p c cs (h c (by simp))

theorem rtrim_spec (p : Char → Bool) (ds ts : List Char)
    (hts : ∀ x ∈ ts, p x = true) (hds : ∀ x ∈ ds, p x = false) :
    rtrim p (ds ++ ts) = ds := by
  unfold rtrim
  rw [List.reverse_append]
  rw [dropWhile_all_append p ts.reverse ds.reverse
    (fun x hx => hts x (List.mem_reverse.mp hx))]
  rw [dropWhile_all_false p ds.reverse
    (fun x hx => hds x (List.mem_reverse.mp hx))]
  exact List.reverse_reverse ds

theorem takeWhile_all_true (p : Char → Bool) (l : List Char)
    (h : ∀ x ∈ l, p x = true) : List.takeWhile p l = l := by
  induction l with
  | nil => rfl
  | cons c cs ih =>
    simp only [List.takeWhile_cons, if_pos (h c (by simp))]
    rw [ih fun x hx => h x (List.mem_cons_of_mem _ hx)]

theorem digit_not_space (c : Char) (h : isDigit10 c = true) :
    gIsSpaceB c = false := by
  simp only [isDigit10, Bool.and_eq_true, decide_eq_true_eq] at h
  simp only [gIsSpaceB, Bool.or_eq_false_iff, decide_eq_false_iff_not]
  omega

theorem digit_ne_minus (c : Char) (h : isDigit10 c = true) : c ≠ '-' := by
  intro hc
  rw [hc] at h
  exact absurd h (by decide)

theorem digit_ne_plus (c : Char) (h : isDigit10 c = true) : c ≠ '+' := by
  intro hc
  rw [hc] at h
  exact absurd h (by decide)

theorem strtoull_digits (ds : List Char) (hd : ∀ x ∈ ds, isDigit10 x = true)
    (hne : ds ≠ []) (hlt : digitsVal ds < 2 ^ 64) :
    g_ascii_strtoull10 ds = digitsVal ds := by
  rcases ds with _ | ⟨d, rest⟩
  · exact absurd rfl hne
  · have hd0 : isDigit10 d = true := hd d (by simp)
    simp only [g_ascii_strtoull10]
    rw [dropWhile_head_false gIsSpaceB d rest (digit_not_space d hd0)]
    simp only [List.head?_cons]
    have hminus : (some d = some '-') = False := by
      simp only [eq_iff_iff, iff_false]
      intro hm
      exact digit_ne_minus d hd0 (Option.some.inj hm)
    have hplus : (some d = some '+') = False := by
      simp only [eq_iff_iff, iff_false]
      intro hp
      exact digit_ne_plus d hd0 (Option.some.inj hp)
    simp only [hminus, hplus, false_or, if_false]
    rw [takeWhile_all_true isDigit10 (d :: rest) hd]
    rw [if_neg (by omega)]

theorem lowerEq_congr (a b c : List Char) (h : lowerEq a b = true) :
    lowerEq a c = lowerEq b c := by
  simp only [lowerEq, decide_eq_true_eq] at h ⊢
  rw [h]

theorem off_t_wrap_eq_self (x : Int) (h1 : -(2 ^ 63) ≤ x) (h2 : x < 2 ^ 63) :
    off_t_wrap x = x := by
  have hp63 : (2 : Int) ^ 63 = 9223372036854775808 := by norm_num
  have hp64 : (2 : Int) ^ 64 = 18446744073709551616 := by norm_num
  rw [hp63] at h1 h2
  simp only [off_t_wrap, hp63, hp64]
  rw [Int.emod_eq_of_lt (by omega) (by omega)]
  omega

def c6is : IS :=
  { offset := 1000, size := -1, seekable := false, mime := none,
    meta_name := none, error := 0, ready := true }

/-- Counterexample for claim C6: a well-formed Content-Length line with
the in-range value 2^64 - 1, received at absolute offset 1000, does not
set the total size to 1000 + (2^64 - 1): the sum is computed in unsigned
64-bit arithmetic and narrowed into the signed off_t field, so the
stored size is 999. -/
theorem claim_c6_counterexample :
    (input_curl_headerfunction c6is
      ("Content-Length: 18446744073709551615".toList)).size = 999 ∧
    digitsVal ("18446744073709551615".toList) = 2 ^ 64 - 1 ∧
    (999 : Int) ≠ 1000 + ((2 ^ 64 : Int) - 1) := by
  refine ⟨by decide, by decide, by decide⟩

/-- Claim C6 (amended): for every well-formed content-length header line
with integer value v processed while the logical offset is o, with
o nonnegative and the exact sum o + v below 2^63 (so that it is
representable in the signed off_t field), the stream's total size is set
to o + v, converting a range request's partial length into an absolute
resource size; for larger values the unsigned 64-bit sum wraps modulo
2^64 and is narrowed into off_t. -/
theorem claim_c6_amended :
    ∀ (is : IS) (name ds ts : List Char) (k : Nat),
      lowerEq name cContentLength = true → ':' ∉ name →
      (∀ x ∈ ds, isDigit10 x = true) → ds ≠ [] →
      (∀ x ∈ ts, gIsSpaceB x = true) →
      name.length + 1 + k + ds.length < 64 →
      0 ≤ is.offset →
      is.offset + (digitsVal ds : Int) < 2 ^ 63 →
      (input_curl_headerfunction is
        (name ++ ':' :: (List.replicate k ' ' ++ (ds ++ ts)))).size =
        is.offset + (digitsVal ds : Int) := by
  intro is name ds ts k hcl hcolon hdig hne hsp hlen hoff hsum
  have hp63 : (2 : Int) ^ 63 = 9223372036854775808 := by norm_num
  have hp64n : (2 : Nat) ^ 64 = 18446744073709551616 := by norm_num
  have hlt : digitsVal ds < 2 ^ 64 := by
    have hsum' := hsum
    rw [hp63] at hsum'
    rw [hp64n]
    omega
  have hmem := memchrColon_append name (List.replicate k ' ' ++ (ds ++ ts)) hcolon
  have hv1 : (List.replicate k ' ' ++ (ds ++ ts)).dropWhile gIsSpaceB =
      ds ++ ts := by
    rw [dropWhile_all_append gIsSpaceB _ _ (fun x hx => by
      rw [List.eq_of_mem_replicate hx]
      rfl)]
    rcases ds with _ | ⟨d, rest⟩
    · exact absurd rfl hne
    · rw [List.cons_append]
      exact dropWhile_head_false gIsSpaceB d (rest ++ ts)
        (digit_not_space d (hdig d (by simp)))
  have hv2 : rtrim gIsSpaceB (ds ++ ts) = ds :=
    rtrim_spec gIsSpaceB ds ts hsp
      (fun x hx => digit_not_space x (hdig x hx))
  have har : lowerEq name cAcceptRanges = false := by
    rw [lowerEq_congr name cContentLength cAcceptRanges hcl]
    decide
  simp only [input_curl_headerfunction, hmem]
  rw [if_neg (by omega)]
  rw [hv1, hv2]
  rw [if_neg (by simp [har]), if_pos hcl]
  rw [if_neg (by
    simp only [List.length_append, List.length_replicate]
    omega)]
  rw [strtoull_digits ds hdig hne hlt]
  refine off_t_wrap_eq_self _ ?_ hsum
  rw [hp63]
  omega

/-- Witness for the amended claim C6: a Content-Length of 12345 received
at absolute offset 1000 sets the total size to 13345. -/
theorem claim_c6_amended_witness :
    lowerEq ("Content-Length".toList) cContentLength = true ∧
    (input_curl_headerfunction c6is ("Content-Length".toList ++ ':' ::
      (List.replicate 1 ' ' ++ ("12345".toList ++ "\r\n".toList)))).size =
      13345 := by
  refine ⟨by decide, ?_⟩
  have h := claim_c6_amended c6is ("Content-Length".toList) ("12345".toList)
    ("\r\n".toList) 1 (by decide) (by decide) (by decide) (by decide)
    (by decide) (by decide) (by decide) (by decide)
  rw [h]
  decide

theorem strtoull_nondigit (d : Char) (vs : List Char)
    (hsp : gIsSpaceB d = false) (hdig : isDigit10 d = false)
    (hm : d ≠ '-') (hp : d ≠ '+') :
    g_ascii_strtoull10 (d :: vs) = 0 := by
  simp only [g_ascii_strtoull10]
  rw [dropWhile_head_false gIsSpaceB d vs hsp]
  simp only [List.head?_cons]
  have hminus : (some d = some '-') = False := by
    simp only [eq_iff_iff, iff_false]
    intro hc
    exact hm (Option.some.inj hc)
  have hplus : (some d = some '+') = False := by
    simp only [eq_iff_iff, iff_false]
    intro hc
    exact hp (Option.some.inj hc)
  simp only [hminus, hplus, false_or, if_false]
  have htw : List.takeWhile isDigit10 (d :: vs) = [] := by
    rw [List.takeWhile_cons, if_neg (by simp [hdig])]
  simp only [htw]
  norm_num [digitsVal]

/-- Claim C7 (amended): a content-length line whose value is unparseable
as an integer is parsed as 0 and the interpreter assigns
total_size = offset + 0, i.e. the field is set to the current logical
offset (representable in off_t) rather than left unchanged (it stays
unchanged only when the line has no colon, the name is 64 bytes or
longer, or the trimmed value ends at or beyond byte 64 of the line). -/
theorem claim_c7_amended :
    ∀ (is : IS) (name : List Char) (d : Char) (vs : List Char) (k : Nat),
      lowerEq name cContentLength = true → ':' ∉ name →
      gIsSpaceB d = false → isDigit10 d = false → d ≠ '-' → d ≠ '+' →
      (∀ x ∈ vs, gIsSpaceB x = false) →
      name.length + 1 + k + (d :: vs).length < 64 →
      -(2 ^ 63) ≤ is.offset → is.offset < 2 ^ 63 →
      (input_curl_headerfunction is
        (name ++ ':' :: (List.replicate k ' ' ++ (d :: vs)))).size =
        is.offset := by
  intro is name d vs k hcl hcolon hdsp hddig hdm hdp hvs hlen hlo hhi
  have hmem := memchrColon_append name (List.replicate k ' ' ++ (d :: vs)) hcolon
  have hv1 : (List.replicate k ' ' ++ (d :: vs)).dropWhile gIsSpaceB =
      d :: vs := by
    rw [dropWhile_all_append gIsSpaceB _ _ (fun x hx => by
      rw [List.eq_of_mem_replicate hx]
      rfl)]
    exact dropWhile_head_false gIsSpaceB d vs hdsp
  have hv2 : rtrim gIsSpaceB (d :: vs) = d :: vs := by
    have := rtrim_spec gIsSpaceB (d :: vs) [] (by simp) (by
      intro x hx
      rcases List.mem_cons.mp hx with hx | hx
      · rw [hx]
        exact hdsp
      · exact hvs x hx)
    simpa using this
  have har : lowerEq name cAcceptRanges = false := by
    rw [lowerEq_congr name cContentLength cAcceptRanges hcl]
    decide
  simp only [input_curl_headerfunction, hmem]
  rw [if_neg (by omega)]
  rw [hv1, hv2]
  rw [if_neg (by simp [har]), if_pos hcl]
  rw [if_neg (by
    simp only [List.length_append, List.length_replicate, List.length_cons]
    simp only [List.length_cons] at hlen
    omega)]
  rw [strtoull_nondigit d vs hdsp hddig hdm hdp]
  simp only [Nat.cast_zero, add_zero]
  exact off_t_wrap_eq_self is.offset hlo hhi

def c7is : IS :=
  { offset := 0, size := 500, seekable := false, mime := none,
    meta_name := none, error := 0, ready := true }

/-- Counterexample for claim C7: a malformed value makes the interpreter
overwrite a previously known total size of 500 with 0 (the current
offset), so the field is not left unchanged. -/
theorem claim_c7_counterexample :
    c7is.size = 500 ∧
    (input_curl_headerfunction c7is ("Content-Length: abc".toList)).size = 0 ∧
    (0 : Int) ≠ 500 := by
  decide

/-- Witness for the amended claim C7 at a concrete malformed line. -/
theorem claim_c7_witness :
    (input_curl_headerfunction c6is
      ("Content-Length".toList ++ ':' ::
        (List.replicate 1 ' ' ++ ('a' :: "bc".toList)))).size = 1000 := by
  have h := claim_c7_amended c6is ("Content-Length".toList) 'a' ("bc".toList) 1
    (by decide) (by decide) (by decide) (by decide) (by decide) (by decide)
    (by decide) (by decide) (by decide) (by decide)
  rw [h]
  decide

/-- Claim C1: for every sequence of read calls on an open stream, with
arbitrary requested sizes and arbitrary body-chunk sizes delivered by the
transfer engine, concatenating the byte strings returned by read
reproduces exactly the bytes the engine delivered, in arrival order, with
no byte duplicated, dropped or attributed to the wrong offset, and the
logical offset advances by exactly the number of bytes returned by each
read. -/
theorem claim_c1 :
    (∀ (s : State) (reads : List (Nat × List PumpStep)) (out : List Nat)
        (s' : State),
      s.c.buffers = [] → s.delivered = [] → s.is.offset = 0 →
      runReadsT s reads = some (out, s') →
      out ++ pendingBytes s' = s'.delivered ∧
        s'.is.offset = (out.length : Int)) ∧
    (∀ (s : State) (n : Nat) (tr : List PumpStep) (out : List Nat) (s' : State),
      input_curl_read s n tr = some (out, s') →
      s'.is.offset = s.is.offset + (out.length : Int) ∧
      ∃ new : List Nat, s'.delivered = s.delivered ++ new ∧
        out ++ pendingBytes s' = pendingBytes s ++ new) := by
  constructor
  · intro s reads out s' hb hd ho h
    obtain ⟨new, hdel, hpend, hoff, _⟩ := runReadsT_spec reads s out s' h
    have hps : pendingBytes s = [] := by simp [pendingBytes, hb]
    constructor
    · rw [hpend, hps, hdel, hd]
    · rw [hoff, ho, zero_add]
  · intro s n tr out s' h
    obtain ⟨new, hdel, hpend, hoff, _⟩ := input_curl_read_spec s n tr out s' h
    exact ⟨hoff, new, hdel, hpend⟩

def c1step : PumpStep := ⟨SelectResult.ready, MCode.ok, [[1, 2, 3]], []⟩

def c1end : State :=
  { is := { offset := 3, size := -1, seekable := false, mime := none,
            meta_name := none, error := 0, ready := true }
    c := { buffers := [], rewind := [], eof := false, buffered := true,
           easy := true, range := none }
    startCount := 1
    delivered := [1, 2, 3] }

def c1mid : State :=
  { is := { offset := 2, size := -1, seekable := false, mime := none,
            meta_name := none, error := 0, ready := true }
    c := { buffers := [⟨[1, 2, 3], 2⟩], rewind := [], eof := false,
           buffered := true, easy := true, range := none }
    startCount := 1
    delivered := [1, 2, 3] }

/-- Witness for claim C1 at a concrete two-read run. -/
theorem claim_c1_witness :
    ([1, 2, 3] ++ pendingBytes c1end = c1end.delivered ∧
      c1end.is.offset = (([1, 2, 3] : List Nat).length : Int)) ∧
    (c1mid.is.offset = openedState.is.offset +
        (([1, 2] : List Nat).length : Int) ∧
      ∃ new : List Nat, c1mid.delivered = openedState.delivered ++ new ∧
        [1, 2] ++ pendingBytes c1mid = pendingBytes openedState ++ new) :=
  ⟨claim_c1.1 openedState [(2, [c1step]), (5, [])] [1, 2, 3] c1end
      rfl rfl rfl (by decide),
   claim_c1.2 openedState 2 [c1step] [1, 2] c1mid (by decide)⟩

/-! ## The rewind-replay invariant (claim C3) -/

/-- A freshly connected stream: nothing consumed yet, offset 0, no rewind
history; every buffered chunk is untouched and non-empty. -/
def Fresh (s : State) : Prop :=
  s.c.rewind = [] ∧ s.is.offset = 0 ∧
  ∀ b ∈ s.c.buffers, b.consumed = 0 ∧ b.payload ≠ []

/-- Tracking state: the rewind list plus the reset queue reconstruct the
original buffers, and the offset equals the retained plus front-consumed
bytes. -/
def InvTracking (s0 : State) (bufs rew : List Chunk) (off : Int) : Prop :=
  rew.map resetChunk ++ resetFront bufs = s0.c.buffers ∧
  off = (chunkSizes rew : Int) + (frontConsumed bufs : Int) ∧
  (∀ b ∈ rew, b.consumed = b.payload.length) ∧
  (∀ b ∈ bufs, b.consumed < b.payload.length) ∧
  (∀ b ∈ bufs.tail, b.consumed = 0)

/-- Tracking lost: some consumed bytes were freed, the rewind list is
empty and position 0 is no longer representable. -/
def InvLost (bufs : List Chunk) (rew : List Chunk) (off : Int) : Prop :=
  rew = [] ∧ 0 < off ∧
  (bufs = [] ∨ (frontConsumed bufs : Int) < off) ∧
  (∀ b ∈ bufs, b.consumed < b.payload.length) ∧
  (∀ b ∈ bufs.tail, b.consumed = 0)

/-- The invariant maintained by trace-free reads from a fresh state. -/
def Inv (s0 s : State) : Prop :=
  ∃ bufs rew off, s = setQueues s0 bufs rew off ∧
    (InvTracking s0 bufs rew off ∨ InvLost bufs rew off)

theorem setQueues_self (s : State) :
    setQueues s s.c.buffers s.c.rewind s.is.offset = s := rfl

theorem inv_base (s0 : State) (h : Fresh s0) : Inv s0 s0 := by
  obtain ⟨hrew, hoff, hbufs⟩ := h
  refine ⟨s0.c.buffers, [], 0, ?_, Or.inl ?_⟩
  · rw [← hrew, ← hoff]
    exact (setQueues_self s0).symm
  · refine ⟨?_, ?_, by simp, ?_, ?_⟩
    · rw [List.map_nil, List.nil_append,
        resetFront_of_all_zero _ (fun b hb => (hbufs b hb).1)]
    · rw [chunkSizes_nil,
        frontConsumed_of_all_zero _ (fun b hb => (hbufs b hb).1)]
      simp
    · intro b hb
      rw [(hbufs b hb).1]
      exact List.length_pos.mpr (hbufs b hb).2
    · intro b hb
      exact (hbufs b (List.tail_subset _ hb)).1

theorem curlDrain_rem_pos (n : Nat) (bufs : List Chunk)
    (h1 : ∀ x ∈ bufs, x.consumed < x.payload.length) :
    ∀ x ∈ (curlDrain n bufs).2.2, 0 < x.payload.length := by
  induction bufs generalizing n with
  | nil => simp [curlDrain_nil]
  | cons b rest ih =>
    have hblt : b.consumed < b.payload.length := h1 b (by simp)
    by_cases hn : n = 0
    · subst hn
      rw [curlDrain_cons_zero]
      simp
    · by_cases hk : b.payload.length ≤
          b.consumed + min n (b.payload.length - b.consumed)
      · rw [curlDrain_cons_removed n b rest hn hk]
        intro x hx
        rcases List.mem_cons.mp hx with hx | hx
        · subst hx
          simpa using Nat.lt_of_le_of_lt (Nat.zero_le _) hblt
        · exact ih _ (fun y hy => h1 y (List.mem_cons_of_mem _ hy)) x hx
      · rw [curlDrain_cons_kept n b rest hn hk]
        simp

theorem chunkSizes_append (a b : List Chunk) :
    chunkSizes (a ++ b) = chunkSizes a + chunkSizes b := by
  simp [chunkSizes]

theorem inv_read (s0 s s' : State) (k : Nat) (out : List Nat)
    (hInv : Inv s0 s) (hr : input_curl_read s k [] = some (out, s'))
    (hoff2 : s'.is.offset ≤ max_rewind_size) : Inv s0 s' := by
  obtain ⟨bufs, rew, off, hs, hcase⟩ := hInv
  subst hs
  simp only [input_curl_read, readFill, setQueues] at hr
  by_cases hx : (s0.c.eof || !bufs.isEmpty) = true
  · rw [if_pos hx] at hr
    simp only at hr
    rcases hdr : curlDrain k bufs with ⟨o2, b2, r2⟩
    rw [hdr] at hr
    simp only at hr
    have hsp := Option.some.inj hr
    injection hsp with h1 h2
    subst h2
    -- well-formedness hypotheses shared by both invariant cases
    have hstrict : ∀ b ∈ bufs, b.consumed < b.payload.length := by
      rcases hcase with hA | hB
      · exact hA.2.2.2.1
      · exact hB.2.2.2.1
    have htail : ∀ b ∈ bufs.tail, b.consumed = 0 := by
      rcases hcase with hA | hB
      · exact hA.2.2.2.2
      · exact hB.2.2.2.2
    have hwf := curlDrain_wf k bufs hstrict htail
    have hsz := curlDrain_sizes k bufs
      (fun x hx2 => Nat.le_of_lt (hstrict x hx2)) htail
    have hrst := curlDrain_reset k bufs htail
    have hpos := curlDrain_rem_pos k bufs hstrict
    rw [hdr] at hwf hsz hrst hpos
    simp only at hwf hsz hrst hpos
    rcases hcase with hA | hB
    · obtain ⟨happ, hoffeq, hrfull, _, _⟩ := hA
      have hoffnn : 0 ≤ off := by
        rw [hoffeq]
        positivity
      by_cases hu : (!rew.isEmpty || decide (off = 0)) = true
      · -- retaining: removed chunks go to the rewind list, no overflow clear
        have hnoclear : ¬((!rew.isEmpty || decide (off = 0)) = true ∧
            max_rewind_size < off + (o2.length : Int)) := by
          rintro ⟨-, hcl⟩
          simp only [setQueues] at hoff2
          omega
        refine ⟨b2, _, off + (o2.length : Int), rfl, Or.inl ?_⟩
        rw [if_neg hnoclear, if_pos hu]
        refine ⟨?_, ?_, ?_, hwf.1, hwf.2.1⟩
        · rw [List.map_append, List.append_assoc, hrst, happ]
        · rw [chunkSizes_append]
          have := congrArg List.length h1
          push_cast
          omega
        · intro b hb
          rcases List.mem_append.mp hb with hb | hb
          · exact hrfull b hb
          · exact hwf.2.2 b hb
      · -- not retaining: rew = [] and off ≠ 0
        have hrewnil : rew = [] := by
          rcases hrew : rew with _ | ⟨x, xs⟩
          · rfl
          · rw [hrew] at hu
            simp at hu
        have hoffne : ¬(off = 0) := by
          intro hzero
          rw [hzero] at hu
          simp at hu
        have hoffpos : 0 < off := lt_of_le_of_ne hoffnn (Ne.symm hoffne)
        refine ⟨b2, _, off + (o2.length : Int), rfl, ?_⟩
        have hcond : ¬((!rew.isEmpty || decide (off = 0)) = true) := hu
        rcases hr2 : r2 with _ | ⟨c, cs⟩
        · -- nothing removed: still tracking
          refine Or.inl ?_
          rw [if_neg (fun hcc => hu hcc.1), if_neg hu]
          rw [hr2] at hrst hsz
          simp only [List.map_nil, List.nil_append, chunkSizes_nil] at hrst hsz
          refine ⟨?_, ?_, hrfull, hwf.1, hwf.2.1⟩
          · rw [hrewnil] at happ ⊢
            simp only [List.map_nil, List.nil_append] at happ ⊢
            rw [hrst, happ]
          · rw [hrewnil] at hoffeq
            rw [hrewnil]
            simp only [chunkSizes_nil, Nat.cast_zero, zero_add] at hoffeq ⊢
            omega
        · -- chunks were freed: tracking is lost
          refine Or.inr ?_
          refine ⟨?_, by omega, ?_, hwf.1, hwf.2.1⟩
          · rw [if_neg (fun hcc => hu hcc.1), if_neg hu]
            exact hrewnil
          · right
            have hszpos : 0 < chunkSizes r2 := by
              rw [hr2, chunkSizes_cons]
              have hc := hpos c (by rw [hr2]; simp)
              have hcfull := hwf.2.2 c (by rw [hr2]; simp)
              omega
            rw [hrewnil] at hoffeq
            simp only [chunkSizes_nil, Nat.cast_zero, zero_add] at hoffeq
            omega
    · obtain ⟨hrewnil, hoffpos, hfront, _, _⟩ := hB
      subst hrewnil
      have hu : ¬((!([] : List Chunk).isEmpty || decide (off = 0)) = true) := by
        simp
        omega
      refine ⟨b2, _, off + (o2.length : Int), rfl, Or.inr ?_⟩
      refine ⟨?_, by omega, ?_, hwf.1, hwf.2.1⟩
      · rw [if_neg (fun hcc => hu hcc.1), if_neg hu]
      · right
        have hfr : (frontConsumed bufs : Int) < off := by
          rcases hfront with hb | hb
          · rw [hb, frontConsumed_nil]
            omega
          · exact hb
        omega
  · rw [if_neg hx] at hr
    simp at hr

theorem inv_runReads :
    ∀ (ks : List Nat) (s0 s s' : State) (out : List Nat),
      Inv s0 s → runReads s ks = some (out, s') →
      s'.is.offset ≤ max_rewind_size → Inv s0 s' := by
  intro ks
  induction ks with
  | nil =>
    intro s0 s s' out hInv h hoff
    simp only [runReads] at h
    have hsp := Option.some.inj h
    injection hsp with h1 h2
    rw [← h2]
    exact hInv
  | cons n ks ih =>
    intro s0 s s' out hInv h hoff
    simp only [runReads] at h
    rcases hr1 : input_curl_read s n [] with _ | ⟨out1, s1⟩
    · rw [hr1] at h
      simp at h
    · rw [hr1] at h
      simp only at h
      rcases hr2 : runReads s1 ks with _ | ⟨out2, s2⟩
      · rw [hr2] at h
        simp at h
      · rw [hr2] at h
        simp only at h
        have hsp := Option.some.inj h
        injection hsp with h1 h2
        subst h2
        obtain ⟨new2, _, _, ho2, _⟩ := runReads_spec ks s1 out2 s2 hr2
        have hs1off : s1.is.offset ≤ max_rewind_size := by
          have : (0 : Int) ≤ (out2.length : Int) := by positivity
          omega
        exact ih s0 s1 s2 out2 (inv_read s0 s s1 n out1 hInv hr1 hs1off) hr2 hoff

/-- Claim C3: for every stream that has read N bytes contiguously from
offset 0 with the rewind window intact (`input_curl_can_rewind`, N at
most 64 KiB), `seek(SEEK_SET, 0)` succeeds with zero new engine start
calls and restores exactly the original state: every retained chunk's
consumed cursor and the front buffer's consumed cursor reset to 0, the
cache spliced back in original order and cleared, the logical offset 0;
re-running the same reads returns byte-identical output. -/
theorem claim_c3 :
    ∀ (s0 s1 : State) (ks : List Nat) (out : List Nat) (io : Bool)
      (sc : List (List Nat)) (so : Bool) (ms : List Bool),
      Fresh s0 → runReads s0 ks = some (out, s1) →
      (out.length : Int) ≤ max_rewind_size →
      input_curl_can_rewind s1 = true →
      input_curl_seek s1 0 Whence.set io sc so ms = (true, s0) ∧
      s1.startCount = s0.startCount ∧
      runReads s0 ks = some (out, s1) := by
  intro s0 s1 ks out io sc so ms hfresh hrun hN hcr
  obtain ⟨hrew0, hoff0, hbufs0⟩ := hfresh
  obtain ⟨new, _, _, hoffr, hcnt⟩ := runReads_spec ks s0 out s1 hrun
  have hs1off : s1.is.offset ≤ max_rewind_size := by
    rw [hoffr, hoff0, zero_add]
    exact hN
  have hInv := inv_runReads ks s0 s0 s1 out
    (inv_base s0 ⟨hrew0, hoff0, hbufs0⟩) hrun hs1off
  obtain ⟨bufs, rew, off, hs, hcase⟩ := hInv
  have hcnt' : s1.startCount = s0.startCount := by
    rw [hs]
    rfl
  rcases hcase with hA | hB
  · obtain ⟨happ, hoffeq, hrfull, hstrict, htail⟩ := hA
    by_cases hoffz : off = 0
    · -- no byte was consumed: the state is still the fresh state
      have hrewnil : rew = [] := by
        rcases hrw : rew with _ | ⟨c, cs⟩
        · rfl
        · exfalso
          have hc : resetChunk c ∈ s0.c.buffers := by
            rw [← happ, hrw]
            simp
          have hlen : 0 < c.payload.length := by
            have := (hbufs0 (resetChunk c) hc).2
            simpa [resetChunk] using List.length_pos.mpr this
          rw [hrw, hoffz, chunkSizes_cons] at hoffeq
          have hnn : (0:Int) ≤ (frontConsumed bufs : Int) := by positivity
          omega
      have hfcz : frontConsumed bufs = 0 := by
        rw [hrewnil, chunkSizes_nil, hoffz] at hoffeq
        omega
      have hbufseq : bufs = s0.c.buffers := by
        rw [← happ, hrewnil]
        simp only [List.map_nil, List.nil_append]
        rcases hb : bufs with _ | ⟨c, cs⟩
        · rfl
        · rw [hb, frontConsumed_cons] at hfcz
          rw [resetFront_cons, resetChunk_of_consumed_zero c hfcz]
      have hseq : s1 = s0 := by
        rw [hs, hbufseq, hrewnil, hoffz, ← hrew0, ← hoff0]
        exact setQueues_self s0
      refine ⟨?_, hcnt', hrun⟩
      rw [hseq, input_curl_seek, if_pos ⟨rfl, rfl, hoff0⟩]
    · -- rewind replay
      have hoffne : s1.is.offset ≠ 0 := by
        rw [hs]
        exact hoffz
      rw [input_curl_seek, if_neg (fun hcc => hoffne hcc.2.2),
        if_pos ⟨rfl, rfl, hcr⟩]
      refine ⟨?_, hcnt', hrun⟩
      have hrwd : input_curl_rewind s1 =
          setQueues s0 (rew.map resetChunk ++ resetFront bufs) [] 0 := by
        rw [hs]
        rfl
      rw [hrwd, happ, ← hrew0, ← hoff0]
      rw [show setQueues s0 s0.c.buffers s0.c.rewind s0.is.offset = s0 from
        setQueues_self s0]
  · exfalso
    obtain ⟨hrewnil, hoffpos, hfront, hstrict, htail⟩ := hB
    rw [hs] at hcr
    simp only [input_curl_can_rewind, setQueues, hrewnil, List.isEmpty_nil,
      Bool.not_true, Bool.false_eq_true, if_false] at hcr
    rcases hb : bufs with _ | ⟨c, cs⟩
    · rw [hb] at hcr
      simp at hcr
    · rw [hb] at hcr
      simp only [decide_eq_true_eq] at hcr
      rcases hfront with hf | hf
      · rw [hb] at hf
        simp at hf
      · rw [hb, frontConsumed_cons] at hf
        omega

def c3start : State :=
  { is := { offset := 0, size := -1, seekable := false, mime := none,
            meta_name := none, error := 0, ready := true }
    c := { buffers := [⟨[1, 2, 3], 0⟩, ⟨[4, 5], 0⟩], rewind := [], eof := false,
           buffered := true, easy := true, range := none }
    startCount := 1
    delivered := [1, 2, 3, 4, 5] }

def c3mid : State :=
  { is := { offset := 4, size := -1, seekable := false, mime := none,
            meta_name := none, error := 0, ready := true }
    c := { buffers := [⟨[4, 5], 1⟩], rewind := [⟨[1, 2, 3], 3⟩], eof := false,
           buffered := true, easy := true, range := none }
    startCount := 1
    delivered := [1, 2, 3, 4, 5] }

/-- Witness for claim C3 at a concrete two-read run and rewind. -/
theorem claim_c3_witness :
    input_curl_seek c3mid 0 Whence.set true [] true [] = (true, c3start) ∧
    c3mid.startCount = c3start.startCount ∧
    runReads c3start [3, 1] = some ([1, 2, 3, 4], c3mid) :=
  claim_c3 c3start c3mid [3, 1] [1, 2, 3, 4] true [] true []
    ⟨rfl, rfl, by decide⟩ (by decide) (by decide) (by decide)

/-- Witness for the amended claim C2 at a concrete read. -/
theorem claim_c2_amended_witness :
    c1mid.c.rewind = [] ∨ c1mid.is.offset ≤ max_rewind_size :=
  claim_c2_amended openedState 2 [c1step] [1, 2] c1mid (by decide) (Or.inl rfl)

def c4seekable : State :=
  { c4state with is := { c4state.is with seekable := true } }

/-- Witness for the amended claim C4 at concrete seeks. -/
theorem claim_c4_amended_witness :
    input_curl_seek c4seekable 0 Whence.cur true [] true [] =
      (true, c4seekable) ∧
    input_curl_seek c4state 3 Whence.cur true [] true [] = (false, c4state) :=
  ⟨claim_c4_amended.1 c4seekable 0 Whence.cur true [] true []
      (by decide) (by decide) (Or.inl rfl),
   claim_c4_amended.2 c4state 3 Whence.cur true [] true [] rfl (by decide)⟩

/-- Witness for the amended claim C5 at the failed concrete state. -/
theorem claim_c5_amended_witness :
    ∃ (out : List Nat) (s' : State),
      input_curl_read openedFailedState 5 [] = some (out, s') ∧
      out ++ pendingBytes s' = pendingBytes openedFailedState ∧
      s'.is.error = openedFailedState.is.error ∧ s'.c.eof = true ∧
      s'.delivered = openedFailedState.delivered ∧
      (pendingBytes openedFailedState = [] → out = []) :=
  claim_c5_amended openedFailedState 5 rfl

def c8state : State :=
  { is := { offset := 3, size := 10, seekable := true, mime := none,
            meta_name := none, error := 0, ready := true }
    c := { buffers := [⟨[9, 9], 1⟩], rewind := [], eof := false,
           buffered := true, easy := true, range := none }
    startCount := 1
    delivered := [9, 9] }

/-- Witness for claim C8 at a concrete seek-to-size. -/
theorem claim_c8_witness :
    ∃ s' : State, input_curl_seek c8state 10 Whence.set true [] true [] =
      (true, s') ∧
    s'.c.eof = true ∧ s'.c.buffers = [] ∧ s'.c.rewind = [] ∧
    s'.is.offset = 10 ∧ s'.startCount = c8state.startCount ∧
    input_curl_eof s' = true ∧
    input_curl_read s' 7 [] = some ([], s') :=
  claim_c8 c8state 10 true [] true [] 7 rfl rfl (by decide) (by decide)
    (by decide)

/-- Witness for the amended claim C9 on the timeout trace. -/
theorem claim_c9_amended_witness :
    ∃ st ∈ [pollStep, timeoutStep], st.sel ≠ SelectResult.ready :=
  claim_c9_amended [pollStep, timeoutStep] openedState 4 openedState
    (by decide) (by decide) (by decide) rfl rfl

/-- Witness for claim C10 at a concrete failed reconnect. -/
theorem claim_c10_witness :
    ∃ s' : State, input_curl_seek c4seekable 100 Whence.set false [] true [] =
      (false, s') ∧
    s'.is.offset = 100 ∧ s'.c.buffers = [] ∧ s'.c.rewind = [] ∧
    s'.c.easy = false :=
  claim_c10 c4seekable 100 100 Whence.set false [] true [] rfl (by decide)
    (by decide) (by decide) (by decide) (by decide) (Or.inl rfl)

end InputCurl
